import Mathlib

/-!
# Verification of the barycentric Gaussian-to-mesh mapping engine

This file is a shallow embedding, over exact rationals, of
`barycentric_mapping.py`: the face-attribute cache (`compute_face_data`), the
narrow-phase projector (`point_to_triangle_distance_and_projection`), the two
broad-phase strategies (`compute_mapping_cpu`, `compute_mapping_cuda`), the
reconstructor (`reconstruct_positions`) and the serializer dispatch
(`save_mapping`), together with theorems deciding the specification's claims.

Modelling conventions, used throughout and noted again at each definition:

* Scalars are `ℚ` (the source computes in IEEE floating point; all claims under
  scrutiny are about exact values, tolerances far above float error, or
  structural behaviour, so exact rationals are the faithful idealization).
  Since the library's `Rat.add`, `Rat.sub`, `Rat.mul`, `Rat.div` are marked
  irreducible (so `decide` cannot evaluate them), the embedding computes with
  the kernel-reducible wrappers `qAdd`, `qSub`, `qMul`, `qDiv` below, each
  proven equal to the corresponding field operation.
* Euclidean norms are irrational in general, so the embedding stores squared
  distances (`distSq`); the source only ever compares distances or stores
  them, and squaring is strictly monotone on nonnegative reals, so every
  comparison is preserved exactly.
* Unit normals are irrational in general.  The embedding keeps the raw cross
  product `c` and its squared magnitude, and represents the source's scalar
  `normal_offset = dot(p - v0, c) / M` (where `M = max(‖c‖, 1e-10)`) by the
  rational `scaled_offset = dot(p - v0, c) / M²`, i.e. the true offset divided
  by the face-dependent positive factor `M`.  Offsets of two computations that
  use the same face frame are equal iff their scaled values are equal, and on
  faces with `‖c‖ = 1` (used for all concrete counterexamples) the scaled
  value *is* the true offset.  The product `offset · unit-normal` used by the
  reconstructor equals `scaled_offset · c` whenever the record's frame face is
  the face being reconstructed (the undeformed-mesh case of claim C5).
* `inf` (the initial running minimum, and the distances of an empty mesh in
  the exhaustive strategy) is modelled by `Option ℚ` with `none = +∞`.
* A numpy `IndexError` (reading a position past the end of an array) is the
  only exception the mapping core can raise; it is modelled by the
  `CpuOutcome.indexError` outcome.
-/

set_option maxRecDepth 1000000

/-! ## Kernel-reducible rational arithmetic -/

/-- Kernel-reducible addition on `ℚ` (the library's `Rat.add` is irreducible). -/
def qAdd (a b : ℚ) : ℚ := mkRat (a.num * b.den + b.num * a.den) (a.den * b.den)

/-- Kernel-reducible subtraction on `ℚ`. -/
def qSub (a b : ℚ) : ℚ := mkRat (a.num * b.den - b.num * a.den) (a.den * b.den)

/-- Kernel-reducible multiplication on `ℚ`. -/
def qMul (a b : ℚ) : ℚ := mkRat (a.num * b.num) (a.den * b.den)

/-- Kernel-reducible division on `ℚ` (like the field's, `qDiv a 0 = 0`). -/
def qDiv (a b : ℚ) : ℚ := Rat.divInt (a.num * b.den) (b.num * a.den)

/-- Kernel-reducible rational literal `n / d`. -/
def q (n : Int) (d : Nat) : ℚ := mkRat n d

theorem den_cast_ne (a : ℚ) : ((a.den : ℚ)) ≠ 0 := by
  exact_mod_cast a.den_nz

theorem rat_num_eq (a : ℚ) : ((a.num : ℚ)) = a * a.den :=
  (div_eq_iff (den_cast_ne a)).1 (Rat.num_div_den a)

theorem qAdd_eq (a b : ℚ) : qAdd a b = a + b := by
  have ha := den_cast_ne a
  have hb := den_cast_ne b
  rw [qAdd, Rat.mkRat_eq_div]
  push_cast
  conv_rhs => rw [← Rat.num_div_den a, ← Rat.num_div_den b]
  field_simp

theorem qSub_eq (a b : ℚ) : qSub a b = a - b := by
  have ha := den_cast_ne a
  have hb := den_cast_ne b
  rw [qSub, Rat.mkRat_eq_div]
  push_cast
  conv_rhs => rw [← Rat.num_div_den a, ← Rat.num_div_den b]
  field_simp
  ring

theorem qMul_eq (a b : ℚ) : qMul a b = a * b := by
  have ha := den_cast_ne a
  have hb := den_cast_ne b
  rw [qMul, Rat.mkRat_eq_div]
  push_cast
  conv_rhs => rw [← Rat.num_div_den a, ← Rat.num_div_den b]
  field_simp

theorem qDiv_eq (a b : ℚ) : qDiv a b = a / b := by
  rw [qDiv, Rat.divInt_eq_div]
  rcases eq_or_ne b 0 with rfl | hb0
  · simp
  · have hn' : ((b.num : ℚ)) ≠ 0 := by
      exact_mod_cast Rat.num_ne_zero.2 hb0
    push_cast
    rw [div_eq_div_iff (mul_ne_zero hn' (den_cast_ne a)) hb0, rat_num_eq a, rat_num_eq b]
    ring

/-- `np.abs`. -/
def qAbs (x : ℚ) : ℚ := if x < 0 then -x else x

/-- `np.maximum`. -/
def qMax (a b : ℚ) : ℚ := if a < b then b else a

/-- `np.minimum`. -/
def qMin (a b : ℚ) : ℚ := if a < b then a else b

theorem qAbs_eq (x : ℚ) : qAbs x = |x| := by
  rw [qAbs]
  rcases lt_or_le x 0 with h | h
  · rw [if_pos h, abs_of_neg h]
  · rw [if_neg (not_lt.2 h), abs_of_nonneg h]

theorem qMax_eq (a b : ℚ) : qMax a b = max a b := by
  rw [qMax]
  rcases lt_or_le a b with h | h
  · rw [if_pos h, max_eq_right h.le]
  · rw [if_neg (not_lt.2 h), max_eq_left h]

theorem qMin_eq (a b : ℚ) : qMin a b = min a b := by
  rw [qMin]
  rcases lt_or_le a b with h | h
  · rw [if_pos h, min_eq_left h.le]
  · rw [if_neg (not_lt.2 h), min_eq_right h]

/-- Strict comparison of a rational against an `Option ℚ` viewed as `ℚ ∪ {+∞}`
(`none = +∞`): `ltInf a b` is `a < b`.  Models comparisons against the
`np.inf`-initialized running minimum. -/
def ltInf (a : ℚ) : Option ℚ → Bool
  | none => true
  | some b => decide (a < b)

/-! ## Vectors in ℝ³ (embedded over ℚ) -/

/-- A 3-vector of rationals; models one row of an `(N, 3)` float array. -/
structure Vec3 where
  x : ℚ
  y : ℚ
  z : ℚ
deriving DecidableEq, Repr

/-- Zero vector, also the `getD` default for (unreachable) out-of-range reads. -/
def v3zero : Vec3 := ⟨0, 0, 0⟩

def vadd (a b : Vec3) : Vec3 := ⟨qAdd a.x b.x, qAdd a.y b.y, qAdd a.z b.z⟩

def vsub (a b : Vec3) : Vec3 := ⟨qSub a.x b.x, qSub a.y b.y, qSub a.z b.z⟩

def vsmul (c : ℚ) (v : Vec3) : Vec3 := ⟨qMul c v.x, qMul c v.y, qMul c v.z⟩

/-- Dot product, `np.sum(a * b, axis=-1)`. -/
def dot (a b : Vec3) : ℚ := qAdd (qAdd (qMul a.x b.x) (qMul a.y b.y)) (qMul a.z b.z)

/-- Cross product, `np.cross`. -/
def cross (a b : Vec3) : Vec3 :=
  ⟨qSub (qMul a.y b.z) (qMul a.z b.y),
   qSub (qMul a.z b.x) (qMul a.x b.z),
   qSub (qMul a.x b.y) (qMul a.y b.x)⟩

/-- Squared Euclidean norm; the embedding's stand-in for `np.linalg.norm`
(see the header: only comparisons and storage of norms occur in the source). -/
def normSq (a : Vec3) : ℚ := dot a a

theorem vadd_eq (a b : Vec3) : vadd a b = ⟨a.x + b.x, a.y + b.y, a.z + b.z⟩ := by
  rw [vadd, qAdd_eq, qAdd_eq, qAdd_eq]

theorem vsub_eq (a b : Vec3) : vsub a b = ⟨a.x - b.x, a.y - b.y, a.z - b.z⟩ := by
  rw [vsub, qSub_eq, qSub_eq, qSub_eq]

theorem vsmul_eq (c : ℚ) (v : Vec3) : vsmul c v = ⟨c * v.x, c * v.y, c * v.z⟩ := by
  rw [vsmul, qMul_eq, qMul_eq, qMul_eq]

theorem dot_eq (a b : Vec3) : dot a b = a.x * b.x + a.y * b.y + a.z * b.z := by
  rw [dot, qAdd_eq, qAdd_eq, qMul_eq, qMul_eq, qMul_eq]

theorem cross_eq (a b : Vec3) :
    cross a b = ⟨a.y * b.z - a.z * b.y, a.z * b.x - a.x * b.z, a.x * b.y - a.y * b.x⟩ := by
  rw [cross]
  simp only [qSub_eq, qMul_eq]

theorem normSq_eq (a : Vec3) : normSq a = a.x * a.x + a.y * a.y + a.z * a.z := by
  rw [normSq, dot_eq]

theorem normSq_nonneg (a : Vec3) : 0 ≤ normSq a := by
  rw [normSq_eq]
  nlinarith [sq_nonneg a.x, sq_nonneg a.y, sq_nonneg a.z, sq_abs a.x]

theorem normSq_eq_zero_iff (a : Vec3) : normSq a = 0 ↔ a = v3zero := by
  rw [normSq_eq]
  constructor
  · intro h
    have hx : a.x = 0 ∧ a.y = 0 ∧ a.z = 0 := by
      constructor
      · nlinarith [sq_nonneg a.x, sq_nonneg a.y, sq_nonneg a.z]
      constructor
      · nlinarith [sq_nonneg a.x, sq_nonneg a.y, sq_nonneg a.z]
      · nlinarith [sq_nonneg a.x, sq_nonneg a.y, sq_nonneg a.z]
    cases a
    simp only [v3zero]
    simp_all
  · intro h
    subst h
    simp [v3zero]

/-! ## Epsilons and the face-attribute cache (`compute_face_data`, lines 216-239) -/

/-- The source's `1e-10` guard epsilon. -/
def epsQ : ℚ := q 1 (10 ^ 10)

/-- `(1e-10)²`; squared counterpart used where the embedding squares norms. -/
def epsSqQ : ℚ := q 1 (10 ^ 20)

theorem epsQ_pos : 0 < epsQ := by decide

theorem epsSqQ_pos : 0 < epsSqQ := by decide

theorem epsSqQ_eq : epsSqQ = epsQ * epsQ := by
  rw [show epsQ * epsQ = qMul epsQ epsQ from (qMul_eq _ _).symm]
  decide

/-- Squared version of the source's `np.maximum(norms, 1e-10)` normalization
divisor (line 234): `max(‖c‖, 1e-10)² = max(‖c‖², (1e-10)²)`. -/
def norm_scale_sq (crossSq : ℚ) : ℚ := qMax crossSq epsSqQ

/-- A mesh face: a triple of vertex indices (one row of the `(F, 3)` int array). -/
structure Face where
  i0 : Nat
  i1 : Nat
  i2 : Nat
deriving DecidableEq, Repr

/-- Vertex fetch `vertices[i]`.  Numpy fancy indexing raises on an out-of-range
vertex index; every claim below concerns meshes whose face indices are valid
(the spec's Mesh invariant), where `getD` and the source agree, so the
embedding totalizes the fetch with a zero default. -/
def getV (vertices : List Vec3) (i : Nat) : Vec3 := vertices.getD i v3zero

/-- Per-face derived data.  The source's `compute_face_data` returns three
parallel arrays (`centroids`, `normals`, `face_vertices`); the embedding
bundles the rows.  Per the header convention the *unit* normal
`c / max(‖c‖, 1e-10)` is represented by the raw cross product `crossN`
together with `crossSq = ‖c‖²`. -/
structure FaceData where
  centroid : Vec3
  crossN : Vec3
  crossSq : ℚ
  v0 : Vec3
  v1 : Vec3
  v2 : Vec3
deriving DecidableEq, Repr

/-- `FaceData` of the degenerate all-zero triangle; `getD` default only. -/
def fdZero : FaceData := ⟨v3zero, v3zero, 0, v3zero, v3zero, v3zero⟩

/-- Lines 224-239, one row: gather the three vertex positions of the face,
form the centroid `(v0+v1+v2)/3`, the raw normal `cross(v1-v0, v2-v0)` (kept
raw, with its squared magnitude, per the header convention), and the vertex
triple. -/
def face_data_of (vertices : List Vec3) (f : Face) : FaceData :=
  { centroid := vsmul (q 1 3) (vadd (vadd (getV vertices f.i0) (getV vertices f.i1))
      (getV vertices f.i2)),
    crossN := cross (vsub (getV vertices f.i1) (getV vertices f.i0))
      (vsub (getV vertices f.i2) (getV vertices f.i0)),
    crossSq := normSq (cross (vsub (getV vertices f.i1) (getV vertices f.i0))
      (vsub (getV vertices f.i2) (getV vertices f.i0))),
    v0 := getV vertices f.i0, v1 := getV vertices f.i1, v2 := getV vertices f.i2 }

/-- Lines 224-239: the face-data row of every face (the source's three
parallel arrays are built by the same vectorized row computation). -/
def compute_face_data (vertices : List Vec3) (faces : List Face) : List FaceData :=
  faces.map (face_data_of vertices)

/-! ## Narrow phase (`point_to_triangle_distance_and_projection`, lines 242-300) -/

/-- Clamped barycentric coordinates `(u, v, w)`. -/
structure Bary where
  u : ℚ
  v : ℚ
  w : ℚ
deriving DecidableEq, Repr

/-- Result row of the narrow phase: closest point, clamped bary coordinates and
squared distance (see header on squared norms). -/
structure NarrowRes where
  closest : Vec3
  bary : Bary
  distSq : ℚ
deriving DecidableEq, Repr

/-- Zero default for (unreachable) out-of-range chunk reads. -/
def nrZero : NarrowRes := ⟨v3zero, ⟨0, 0, 0⟩, 0⟩

/-- `denom = d00*d11 - d01*d01` (line 272), the Gram determinant of the edge
system of the triangle `(v0, v1, v2)`. -/
def gram_denom (v0 v1 v2 : Vec3) : ℚ :=
  let e0 := vsub v1 v0
  let e1 := vsub v2 v0
  qSub (qMul (dot e0 e0) (dot e1 e1)) (qMul (dot e0 e1) (dot e0 e1))

/-- Line 273: `np.where(np.abs(denom) < 1e-10, 1e-10, denom)`. -/
def floor_denom (d : ℚ) : ℚ := if qAbs d < epsQ then epsQ else d

/-- Lines 275-276: the raw Cramer solution `(v, w)` of the 2×2 normal-equations
system, divided by the floored determinant. -/
def raw_vw (p v0 v1 v2 : Vec3) : ℚ × ℚ :=
  let e0 := vsub v1 v0
  let e1 := vsub v2 v0
  let d := vsub p v0
  let d00 := dot e0 e0
  let d01 := dot e0 e1
  let d11 := dot e1 e1
  let d20 := dot d e0
  let d21 := dot d e1
  let denom := floor_denom (gram_denom v0 v1 v2)
  (qDiv (qSub (qMul d11 d20) (qMul d01 d21)) denom,
   qDiv (qSub (qMul d00 d21) (qMul d01 d20)) denom)

/-- `np.clip(x, 0, 1)` (lines 281-283). -/
def clamp01 (x : ℚ) : ℚ := qMin (qMax x 0) 1

/-- Lines 277 and 281-283: `u = 1 - v - w`, then clamp each of `u, v, w`. -/
def clamped_uvw (p v0 v1 v2 : Vec3) : Bary :=
  let vw := raw_vw p v0 v1 v2
  ⟨clamp01 (qSub (qSub 1 vw.1) vw.2), clamp01 vw.1, clamp01 vw.2⟩

/-- Line 286: the sum of the clamped coordinates fed to the renormalization. -/
def clamp_total (p v0 v1 v2 : Vec3) : ℚ :=
  let c := clamped_uvw p v0 v1 v2
  qAdd (qAdd c.u c.v) c.w

/-- Line 287: `np.where(total < 1e-10, 1.0, total)`. -/
def renorm_total (t : ℚ) : ℚ := if t < epsQ then 1 else t

/-- Lines 288-290: the renormalized barycentric coordinates
`(u, v, w) / total`. -/
def renormed_bary (p v0 v1 v2 : Vec3) : Bary :=
  ⟨qDiv (clamped_uvw p v0 v1 v2).u (renorm_total (clamp_total p v0 v1 v2)),
   qDiv (clamped_uvw p v0 v1 v2).v (renorm_total (clamp_total p v0 v1 v2)),
   qDiv (clamped_uvw p v0 v1 v2).w (renorm_total (clamp_total p v0 v1 v2))⟩

/-- Lines 293-295: the closest point as the barycentric combination of the
vertices with the clamped, renormalized coordinates. -/
def closest_point (p v0 v1 v2 : Vec3) : Vec3 :=
  vadd (vadd (vsmul (renormed_bary p v0 v1 v2).u v0)
    (vsmul (renormed_bary p v0 v1 v2).v v1))
    (vsmul (renormed_bary p v0 v1 v2).w v2)

/-- Lines 242-300: closest point on a triangle via the projective barycentric
solve with clamp-and-renormalize, assembled from the named stages above.
Vectorized in the source over rows; the embedding is the per-row function
(every row is computed independently). -/
def point_to_triangle_distance_and_projection (p v0 v1 v2 : Vec3) : NarrowRes :=
  ⟨closest_point p v0 v1 v2, renormed_bary p v0 v1 v2,
   normSq (vsub p (closest_point p v0 v1 v2))⟩

/-! ## Mapping records and the scaled normal offset -/

/-- One output row of the mapping (`face_indices[i]`, `bary_coords[i]`,
`normal_offsets[i]`, `distances[i]`).  The source's `MappingResult` is the
struct-of-arrays transpose of this list of rows; the rows are index-aligned
with the query points in both layouts.  `offScaled` is the scaled offset and
`distSq` the squared distance, per the header conventions (`none = inf`). -/
structure MappingRecord where
  faceIndex : Nat
  bary : Bary
  offScaled : ℚ
  distSq : Option ℚ
deriving DecidableEq, Repr

/-- Scaled normal offset of point `p` in the frame of face data `f`:
`dot(p - v0, c) / max(‖c‖, 1e-10)²`.  The source's float offset
(lines 376-381 and 521-526) is `dot(p - v0, c) / max(‖c‖, 1e-10)`, i.e. this
value times the face-dependent positive `max(‖c‖, 1e-10)` (see header). -/
def scaled_offset (p : Vec3) (f : FaceData) : ℚ :=
  qDiv (dot (vsub p f.v0) f.crossN) (norm_scale_sq f.crossSq)

/-- The specification's normal-offset formula — `normalOffset =
dot(point − faceVertexTriple[i][0], normals[i])` anchored at the *selected*
face `i` — in the scaled representation of the header. -/
def spec_scaled_offset (vertices : List Vec3) (faces : List Face) (p : Vec3) (i : Nat) : ℚ :=
  scaled_offset p ((compute_face_data vertices faces).getD i fdZero)

/-! ## Batching combinators (`range(0, stop, step)` and array slices) -/

/-- `k` starting offsets `s, s + step, s + 2·step, …`. -/
def strided_starts (step : Nat) : Nat → Nat → List Nat
  | 0, _ => []
  | k + 1, s => s :: strided_starts step k (s + step)

/-- Python's `range(0, stop, step)` for `step > 0`: the `⌈stop/step⌉` multiples
of `step` below `stop`.  Used for both the query-point batch loop and the
face-chunk loop. -/
def range_step (stop step : Nat) : List Nat := strided_starts step ((stop + step - 1) / step) 0

/-- The slice `l[start : start + count]`. -/
def arr_slice (l : List α) (start count : Nat) : List α := (l.drop start).take count

/-! ## CPU strategy (`compute_mapping_cpu`, lines 303-389) -/

/-- Insert `x` into `ys` before the first element `y` with `¬ le x y`. -/
def insertBy (le : α → α → Bool) (x : α) : List α → List α
  | [] => [x]
  | y :: ys => if le x y then x :: y :: ys else y :: insertBy le x ys

/-- Insertion sort; with a `≤`-style comparator it is stable, so equal keys
keep their original relative order. -/
def sortBy (le : α → α → Bool) : List α → List α
  | [] => []
  | x :: xs => insertBy le x (sortBy le xs)

/-- Model of `scipy.spatial.KDTree(centroids).query(p, k)` (lines 322 and 342):
the indices of the `k` nearest centroids in ascending order of distance
(equivalently of squared distance), missing neighbours reported as index
`len(centroids)` when `k` exceeds the number of centroids — both as documented
for scipy.  scipy leaves the order of exact distance ties unspecified; the
model refines it deterministically to index order (the sort is stable and the
scored list is built in index order).  Every concrete theorem below that
depends on the candidate order either has no centroid-distance ties or notes
this modelling choice. -/
def kd_query (centroids : List Vec3) (p : Vec3) (k : Nat) : List Nat :=
  let scored := (List.range centroids.length).map
    (fun i => (i, normSq (vsub p (centroids.getD i v3zero))))
  let sorted := sortBy (fun a b => decide (a.2 ≤ b.2)) scored
  ((sorted.map Prod.fst).take k) ++ List.replicate (k - centroids.length) centroids.length

/-- Running best candidate of the per-point CPU loop (lines 349-351):
`best_dist` (`none` = the `np.inf` start), `best_face = 0`,
`best_bary = (1/3, 1/3, 1/3)`. -/
structure BestState where
  dist : Option ℚ
  face : Nat
  bary : Bary
deriving DecidableEq, Repr

def best_init : BestState := ⟨none, 0, ⟨q 1 3, q 1 3, q 1 3⟩⟩

/-- Lines 353-370: for each candidate face index, skip it if `face_idx >=
len(faces)` (a scipy missing-neighbour pad), otherwise run the narrow phase
and keep the strictly smaller distance (ties keep the earlier candidate). -/
def scan_candidates (fd : List FaceData) (p : Vec3) : List Nat → BestState → BestState
  | [], st => st
  | fi :: rest, st =>
    if fd.length ≤ fi then scan_candidates fd p rest st
    else
      let f := fd.getD fi fdZero
      let r := point_to_triangle_distance_and_projection p f.v0 f.v1 f.v2
      if ltInf r.distSq st.dist then scan_candidates fd p rest ⟨some r.distSq, fi, r.bary⟩
      else scan_candidates fd p rest st

/-- Lines 345-381 for a single query point: scan the KDTree candidates, then
read `normals[best_face]` and `face_verts[best_face, 0]` to form the signed
normal offset.  On an empty mesh that read is out of range — numpy raises
`IndexError` — modelled by `none`.  (The source's `k_nearest > 1` scalar/array
distinction at line 347 is representation-only: both shapes denote the same
candidate list, which is what the model uses.) -/
def per_point_cpu (fd : List FaceData) (centroids : List Vec3) (k : Nat) (p : Vec3) :
    Option MappingRecord :=
  let best := scan_candidates fd p (kd_query centroids p k) best_init
  match fd[best.face]? with
  | none => none
  | some f => some ⟨best.face, best.bary, scaled_offset p f, best.dist⟩

/-- Outcome of the CPU mapping: the records, or the numpy `IndexError` raised
by an out-of-range array read (the only exception this code path can raise;
no `ValidationError` of any kind exists in the source). -/
inductive CpuOutcome
  | ok (records : List MappingRecord)
  | indexError
deriving DecidableEq, Repr

/-- Sequence the per-point results of one batch, propagating the first error. -/
def collect_records (f : Vec3 → Option MappingRecord) : List Vec3 → Option (List MappingRecord)
  | [] => some []
  | p :: ps =>
    match f p, collect_records f ps with
    | some r, some rs => some (r :: rs)
    | _, _ => none

/-- Sequence the batches (lines 336-384): results land in the disjoint slices
`[start:end]` of the preallocated output arrays, i.e. concatenate. -/
def collect_batches (f : Vec3 → Option MappingRecord) : List (List Vec3) → Option (List MappingRecord)
  | [] => some []
  | b :: bs =>
    match collect_records f b, collect_batches f bs with
    | some rs, some rest => some (rs ++ rest)
    | _, _ => none

/-- Line 331: `batch_size = 10000`. -/
def cpu_batch_size : Nat := 10000

/-- Lines 303-389: the index-accelerated CPU strategy.  Precompute face data,
build the KDTree over centroids, process the query points in batches of
10000, and per point scan the `k` nearest-centroid candidates. -/
def compute_mapping_cpu (points vertices : List Vec3) (faces : List Face) (k : Nat) :
    CpuOutcome :=
  let fd := compute_face_data vertices faces
  let centroids := fd.map (·.centroid)
  let batches := (range_step points.length cpu_batch_size).map
    (fun s => arr_slice points s cpu_batch_size)
  match collect_batches (per_point_cpu fd centroids k) batches with
  | some recs => .ok recs
  | none => .indexError

/-! ## CUDA strategy (`compute_mapping_cuda`, lines 392-546) -/

/-- `np.argmin` with its value: index of the *first* minimal element (strict
comparison going right-to-left keeps the leftmost minimum), paired with the
minimum.  `(0, 0)` on the empty list (unreachable: the source never calls
`argmin` on an empty axis). -/
def argminL : List ℚ → Nat × ℚ
  | [] => (0, 0)
  | [d] => (0, d)
  | d :: e :: tail =>
    let r := argminL (e :: tail)
    if r.2 < d then (r.1 + 1, r.2) else (0, d)

/-- Per-point running state of the exhaustive scan (lines 446-449):
`batch_face_indices = 0`, `batch_bary = (0,0,0)`, `batch_min_dist = inf`
(`none`), `batch_normal_offset = 0`.  The `(B,)`-shaped device arrays are
row-independent, so the embedding tracks one row. -/
structure CudaState where
  face : Nat
  bary : Bary
  dist : Option ℚ
  offScaled : ℚ
deriving DecidableEq, Repr

def cuda_init : CudaState := ⟨0, ⟨0, 0, 0⟩, none, 0⟩

/-- The index actually read by `normals_batch[min_face_idx - face_start]` and
`v0_batch[min_face_idx - face_start]` (lines 522-523).  `min_face_idx` is the
argmin *within* the chunk, so for `face_start > 0` the subtraction leaves the
chunk's index range; CuPy wraps out-of-bounds integer-array indices around
(Euclidean modulo the axis length), hence `(mi - face_start) mod L`. -/
def wrap_idx (mi faceStart len : Nat) : Nat :=
  (((mi : Int) - (faceStart : Int)) % (len : Int)).toNat

/-- Lines 452-526, one face chunk `faces[face_start : face_start +
face_batch_size]` against one query point: run the narrow phase on every
face of the chunk, take the per-chunk argmin, and where it strictly improves
the running minimum update face index (line 509: `min_face_idx +
face_start`), barycentric row and distance — but the normal offset is
computed from the face fetched at `wrap_idx` (lines 521-526), the wrapped
`min_face_idx - face_start`, not necessarily the selected face.  The empty
chunk case is unreachable (`range(0, n_faces, step)` yields starts `< n_faces`
only). -/
def cuda_chunk_update (p : Vec3) (faceStart : Nat) (chunk : List FaceData)
    (st : CudaState) : CudaState :=
  match chunk with
  | [] => st
  | _ :: _ =>
    let rs := chunk.map (fun f => point_to_triangle_distance_and_projection p f.v0 f.v1 f.v2)
    let am := argminL (rs.map (·.distSq))
    if ltInf am.2 st.dist then
      let g := chunk.getD (wrap_idx am.1 faceStart chunk.length) fdZero
      ⟨faceStart + am.1, (rs.getD am.1 nrZero).bary, some am.2, scaled_offset p g⟩
    else st

/-- The face-chunk loop (line 452) for a single query point: fold the chunk
update over the chunks in order, starting from the `inf`-initialized state. -/
def cuda_per_point (chunks : List (Nat × List FaceData)) (p : Vec3) : CudaState :=
  chunks.foldl (fun st sc => cuda_chunk_update p sc.1 sc.2 st) cuda_init

/-- The face chunks of line 452: starts `range(0, F, face_batch_size)` paired
with the slices `fd[s : s + face_batch_size]`. -/
def cuda_chunks (fd : List FaceData) (faceBatchSize : Nat) : List (Nat × List FaceData) :=
  (range_step fd.length faceBatchSize).map (fun s => (s, arr_slice fd s faceBatchSize))

/-- The output row for one query point of the exhaustive strategy: the final
running state, reshaped as a record. -/
def cuda_record (chunks : List (Nat × List FaceData)) (p : Vec3) : MappingRecord :=
  match cuda_per_point chunks p with
  | ⟨f, b, d, o⟩ => ⟨f, b, o, d⟩

/-- Lines 392-546: the exhaustive batched strategy, parameterized by the
query-point batch size and face chunk size (hard-coded to 1000 and 50000 at
lines 429-430; `compute_mapping_cuda_default` applies those).  Face data is
computed once (lines 411-422, the same arithmetic as `compute_face_data`);
each point batch is an independent slice of the output arrays and each row of
a batch evolves independently through the chunk loop. -/
def compute_mapping_cuda (points vertices : List Vec3) (faces : List Face)
    (batchSize faceBatchSize : Nat) : List MappingRecord :=
  let chunks := cuda_chunks (compute_face_data vertices faces) faceBatchSize
  ((range_step points.length batchSize).map
    (fun s => (arr_slice points s batchSize).map (cuda_record chunks))).flatten

/-- The CUDA strategy with the source's hard-coded `batch_size = 1000`,
`face_batch_size = 50000` (lines 429-430). -/
def compute_mapping_cuda_default (points vertices : List Vec3) (faces : List Face) :
    List MappingRecord :=
  compute_mapping_cuda points vertices faces 1000 50000

/-! ## Reconstructor (`reconstruct_positions`, lines 586-615) -/

/-- Lines 586-615: barycentric interpolation of the (current) face vertices
plus `normal_offset · n` with the unit normal `n` recomputed from the current
mesh.  Per the header convention the source's `offset · n` equals
`offScaled · cross` exactly when the record's offset was computed in this same
face frame — true for every CPU record (the CPU always anchors the offset at
the selected face) against an undeformed mesh, which is the regime of every
claim that uses this definition; the theorems establish that frame condition
rather than assume it. -/
def reconstruct_one (vertices : List Vec3) (faces : List Face) (r : MappingRecord) : Vec3 :=
  vadd
    (vadd (vadd (vsmul r.bary.u (getV vertices (faces.getD r.faceIndex ⟨0, 0, 0⟩).i0))
      (vsmul r.bary.v (getV vertices (faces.getD r.faceIndex ⟨0, 0, 0⟩).i1)))
      (vsmul r.bary.w (getV vertices (faces.getD r.faceIndex ⟨0, 0, 0⟩).i2)))
    (vsmul r.offScaled (cross
      (vsub (getV vertices (faces.getD r.faceIndex ⟨0, 0, 0⟩).i1)
        (getV vertices (faces.getD r.faceIndex ⟨0, 0, 0⟩).i0))
      (vsub (getV vertices (faces.getD r.faceIndex ⟨0, 0, 0⟩).i2)
        (getV vertices (faces.getD r.faceIndex ⟨0, 0, 0⟩).i0))))

def reconstruct_positions (vertices : List Vec3) (faces : List Face)
    (recs : List MappingRecord) : List Vec3 :=
  recs.map (reconstruct_one vertices faces)

/-! ## Serializer dispatch (`save_mapping`, lines 549-583) -/

/-- What a successful `save_mapping` branch writes: the format tag plus the
result it serializes.  The byte-level encodings (`npz` container, the 16-byte
binary records, the json document) are interchange details not at issue in
any claim; the payload records which branch ran and on what data. -/
inductive SavedPayload
  | npz (r : List MappingRecord)
  | bin (r : List MappingRecord)
  | json (r : List MappingRecord)
deriving DecidableEq, Repr

/-- A completed write of `payload` to `path`. -/
structure WriteOp where
  path : String
  payload : SavedPayload
deriving DecidableEq, Repr

/-- Outcome of `save_mapping`: either exactly one file write, or the
`ValueError(f"Unknown format: {format}")` of line 581, raised before any
filesystem effect (the `else` branch performs no write). -/
inductive SaveOutcome
  | written (op : WriteOp)
  | valueError (fmt : String)
deriving DecidableEq, Repr

/-- Lines 549-583: dispatch on the format string in source order
(`npz`, then `bin`, then `json`, else raise `ValueError`). -/
def save_mapping (result : List MappingRecord) (outputPath fmt : String) : SaveOutcome :=
  if fmt = "npz" then .written ⟨outputPath, .npz result⟩
  else if fmt = "bin" then .written ⟨outputPath, .bin result⟩
  else if fmt = "json" then .written ⟨outputPath, .json result⟩
  else .valueError fmt

/-! ## Basic properties of the narrow phase -/

theorem clamp01_nonneg (x : ℚ) : 0 ≤ clamp01 x := by
  rw [clamp01, qMin_eq, qMax_eq]
  exact le_min (le_max_right x 0) zero_le_one

theorem clamp01_le_one (x : ℚ) : clamp01 x ≤ 1 := by
  rw [clamp01, qMin_eq, qMax_eq]
  exact min_le_right _ _

theorem le_clamp01 (x : ℚ) (h : x ≤ 1) : x ≤ clamp01 x := by
  rw [clamp01, qMin_eq, qMax_eq]
  exact le_min (le_max_left x 0) h

theorem clamp01_of_one_le (x : ℚ) (h : 1 ≤ x) : clamp01 x = 1 := by
  rw [clamp01, qMin_eq, qMax_eq]
  rw [max_eq_left (le_trans zero_le_one h), min_eq_right h]

theorem clamped_uvw_def (p v0 v1 v2 : Vec3) :
    clamped_uvw p v0 v1 v2 =
      ⟨clamp01 (1 - (raw_vw p v0 v1 v2).1 - (raw_vw p v0 v1 v2).2),
       clamp01 (raw_vw p v0 v1 v2).1, clamp01 (raw_vw p v0 v1 v2).2⟩ := by
  rw [clamped_uvw]
  simp only [qSub_eq]

theorem clamp_total_def (p v0 v1 v2 : Vec3) :
    clamp_total p v0 v1 v2 =
      (clamped_uvw p v0 v1 v2).u + (clamped_uvw p v0 v1 v2).v + (clamped_uvw p v0 v1 v2).w := by
  rw [clamp_total]
  simp only [qAdd_eq]

/-- Core of the clamped-sum bound, on abstract raw coordinates: since `u` is
literally `1 - v - w`, either some raw coordinate is `≥ 1` (then its clamp
contributes 1 and the others are nonnegative) or all are `< 1` (then clamping
only raises each and the raw sum is exactly 1). -/
theorem one_le_total_core (v w : ℚ) : 1 ≤ clamp01 (1 - v - w) + clamp01 v + clamp01 w := by
  rcases le_or_lt 1 (1 - v - w) with hu | hu
  · rw [clamp01_of_one_le _ hu]
    have h2 := clamp01_nonneg v
    have h3 := clamp01_nonneg w
    linarith
  · rcases le_or_lt 1 v with h1 | h1
    · rw [clamp01_of_one_le _ h1]
      have h2 := clamp01_nonneg (1 - v - w)
      have h3 := clamp01_nonneg w
      linarith
    · rcases le_or_lt 1 w with h2 | h2
      · rw [clamp01_of_one_le _ h2]
        have h3 := clamp01_nonneg (1 - v - w)
        have h4 := clamp01_nonneg v
        linarith
      · have h3 := le_clamp01 (1 - v - w) hu.le
        have h4 := le_clamp01 v h1.le
        have h5 := le_clamp01 w h2.le
        linarith

/-- The clamped sum of the narrow phase is at least 1. -/
theorem one_le_clamp_total (p v0 v1 v2 : Vec3) : 1 ≤ clamp_total p v0 v1 v2 := by
  rw [clamp_total_def, clamped_uvw_def]
  generalize (raw_vw p v0 v1 v2).1 = a
  generalize (raw_vw p v0 v1 v2).2 = b
  dsimp only
  exact one_le_total_core a b

theorem epsQ_le_one : epsQ ≤ 1 := by decide

theorem renorm_total_of_one_le (t : ℚ) (h : 1 ≤ t) : renorm_total t = t := by
  rw [renorm_total, if_neg]
  have := epsQ_le_one
  intro hlt
  linarith

/-- The `total < 1e-10` fallback of line 287 never fires: the clamped sum is
at least 1. -/
theorem renorm_total_clamp_eq (p v0 v1 v2 : Vec3) :
    renorm_total (clamp_total p v0 v1 v2) = clamp_total p v0 v1 v2 :=
  renorm_total_of_one_le _ (one_le_clamp_total p v0 v1 v2)

theorem clamp_total_pos (p v0 v1 v2 : Vec3) : 0 < clamp_total p v0 v1 v2 :=
  lt_of_lt_of_le one_pos (one_le_clamp_total p v0 v1 v2)

theorem ptTri_bary_def (p v0 v1 v2 : Vec3) :
    (point_to_triangle_distance_and_projection p v0 v1 v2).bary =
      ⟨qDiv (clamped_uvw p v0 v1 v2).u (renorm_total (clamp_total p v0 v1 v2)),
       qDiv (clamped_uvw p v0 v1 v2).v (renorm_total (clamp_total p v0 v1 v2)),
       qDiv (clamped_uvw p v0 v1 v2).w (renorm_total (clamp_total p v0 v1 v2))⟩ := by
  simp only [point_to_triangle_distance_and_projection, renormed_bary]

theorem ptTri_bary_renormed (p v0 v1 v2 : Vec3) :
    (point_to_triangle_distance_and_projection p v0 v1 v2).bary = renormed_bary p v0 v1 v2 := by
  simp only [point_to_triangle_distance_and_projection]

theorem ptTri_closest_def (p v0 v1 v2 : Vec3) :
    (point_to_triangle_distance_and_projection p v0 v1 v2).closest =
      closest_point p v0 v1 v2 := by
  simp only [point_to_triangle_distance_and_projection]

theorem closest_point_def (p v0 v1 v2 : Vec3) :
    closest_point p v0 v1 v2 =
      vadd (vadd (vsmul (renormed_bary p v0 v1 v2).u v0)
        (vsmul (renormed_bary p v0 v1 v2).v v1))
        (vsmul (renormed_bary p v0 v1 v2).w v2) := by
  simp only [closest_point]

theorem ptTri_distSq_def (p v0 v1 v2 : Vec3) :
    (point_to_triangle_distance_and_projection p v0 v1 v2).distSq =
      normSq (vsub p (closest_point p v0 v1 v2)) := by
  simp only [point_to_triangle_distance_and_projection]

/-- A `Bary` satisfying the partition-of-unity output contract: coordinates
sum to exactly 1 (hence within any positive tolerance) and each lies in
`[0, 1]`. -/
def GoodBary (b : Bary) : Prop :=
  b.u + b.v + b.w = 1 ∧ 0 ≤ b.u ∧ b.u ≤ 1 ∧ 0 ≤ b.v ∧ b.v ≤ 1 ∧ 0 ≤ b.w ∧ b.w ≤ 1

instance (b : Bary) : Decidable (GoodBary b) :=
  inferInstanceAs (Decidable (b.u + b.v + b.w = 1 ∧ 0 ≤ b.u ∧ b.u ≤ 1 ∧ 0 ≤ b.v ∧
    b.v ≤ 1 ∧ 0 ≤ b.w ∧ b.w ≤ 1))

/-- Core of the partition property on abstract clamped coordinates. -/
theorem partition_div_core (cu cv cw : ℚ) (h0u : 0 ≤ cu) (h0v : 0 ≤ cv) (h0w : 0 ≤ cw)
    (h1 : 1 ≤ cu + cv + cw) :
    GoodBary ⟨cu / (cu + cv + cw), cv / (cu + cv + cw), cw / (cu + cv + cw)⟩ := by
  have htot0 : 0 < cu + cv + cw := lt_of_lt_of_le one_pos h1
  refine ⟨?_, div_nonneg h0u htot0.le, ?_, div_nonneg h0v htot0.le, ?_,
    div_nonneg h0w htot0.le, ?_⟩
  · dsimp only
    rw [div_add_div_same, div_add_div_same, div_self (ne_of_gt htot0)]
  · dsimp only
    rw [div_le_one htot0]; linarith
  · dsimp only
    rw [div_le_one htot0]; linarith
  · dsimp only
    rw [div_le_one htot0]; linarith

/-- Partition of unity for the narrow-phase output. -/
theorem bary_partition (p v0 v1 v2 : Vec3) :
    GoodBary (point_to_triangle_distance_and_projection p v0 v1 v2).bary := by
  rw [ptTri_bary_def, renorm_total_clamp_eq, clamp_total_def, clamped_uvw_def]
  generalize (raw_vw p v0 v1 v2).1 = a
  generalize (raw_vw p v0 v1 v2).2 = b
  dsimp only
  simp only [qDiv_eq]
  exact partition_div_core _ _ _ (clamp01_nonneg _) (clamp01_nonneg _) (clamp01_nonneg _)
    (one_le_total_core a b)

theorem ptTri_distSq_nonneg (p v0 v1 v2 : Vec3) :
    0 ≤ (point_to_triangle_distance_and_projection p v0 v1 v2).distSq := by
  rw [ptTri_distSq_def]
  exact normSq_nonneg _


/-! ## Guard lemmas: the epsilon floors keep every divisor away from zero -/

theorem qAbs_nonneg (x : ℚ) : 0 ≤ qAbs x := by
  rw [qAbs_eq]
  exact abs_nonneg x

/-- The floored 2×2 determinant (line 273) is never zero: its absolute value
is at least `1e-10`. -/
theorem floor_denom_guard (d : ℚ) : epsQ ≤ qAbs (floor_denom d) ∧ floor_denom d ≠ 0 := by
  rw [floor_denom]
  rcases lt_or_le (qAbs d) epsQ with h | h
  · rw [if_pos h]
    exact ⟨by decide, by decide⟩
  · rw [if_neg (not_lt.2 h)]
    refine ⟨h, ?_⟩
    intro hd
    rw [hd] at h
    revert h
    decide

/-- The (squared) normalization divisor `max(‖c‖, 1e-10)` of lines 233-235 is
positive for every cross product, degenerate or not. -/
theorem norm_scale_sq_pos (c : ℚ) : 0 < norm_scale_sq c := by
  rw [norm_scale_sq, qMax_eq]
  exact lt_of_lt_of_le epsSqQ_pos (le_max_right c epsSqQ)

theorem renorm_total_pos (p v0 v1 v2 : Vec3) : 0 < renorm_total (clamp_total p v0 v1 v2) := by
  rw [renorm_total_clamp_eq]
  exact clamp_total_pos p v0 v1 v2

/-! ## The narrow phase is exact on points written in a triangle's frame -/

theorem clamp01_of_mem (x : ℚ) (h0 : 0 ≤ x) (h1 : x ≤ 1) : clamp01 x = x := by
  rw [clamp01, qMax_eq, qMin_eq, max_eq_left h0, min_eq_left h1]

theorem vec3_ext (a b : Vec3) (hx : a.x = b.x) (hy : a.y = b.y) (hz : a.z = b.z) : a = b := by
  cases a
  cases b
  simp_all

theorem vsub_eq_zero_iff (a b : Vec3) : vsub a b = v3zero ↔ a = b := by
  rw [vsub_eq, v3zero]
  constructor
  · intro h
    have hx := congrArg Vec3.x h
    have hy := congrArg Vec3.y h
    have hz := congrArg Vec3.z h
    simp only at hx hy hz
    exact vec3_ext a b (by linarith) (by linarith) (by linarith)
  · intro h
    subst h
    simp only [Vec3.mk.injEq]
    refine ⟨by ring, by ring, by ring⟩

theorem gram_denom_expand (v0 v1 v2 : Vec3) :
    gram_denom v0 v1 v2 =
      dot (vsub v1 v0) (vsub v1 v0) * dot (vsub v2 v0) (vsub v2 v0) -
        dot (vsub v1 v0) (vsub v2 v0) * dot (vsub v1 v0) (vsub v2 v0) := by
  rw [gram_denom]
  rw [qSub_eq, qMul_eq, qMul_eq]

theorem gram_denom_nonneg (v0 v1 v2 : Vec3) : 0 ≤ gram_denom v0 v1 v2 := by
  rw [gram_denom_expand]
  simp only [dot_eq, vsub_eq]
  nlinarith [sq_nonneg ((v1.x - v0.x) * (v2.y - v0.y) - (v1.y - v0.y) * (v2.x - v0.x)),
    sq_nonneg ((v1.y - v0.y) * (v2.z - v0.z) - (v1.z - v0.z) * (v2.y - v0.y)),
    sq_nonneg ((v1.z - v0.z) * (v2.x - v0.x) - (v1.x - v0.x) * (v2.z - v0.z))]

set_option maxHeartbeats 1000000 in
/-- On a point given exactly as `v0 + v·e0 + w·e1` with unclamped solution in
the triangle and a determinant above the `1e-10` floor, the raw solve
recovers `(v, w)` exactly. -/
theorem raw_vw_exact (p v0 v1 v2 : Vec3) (v w : ℚ)
    (hp : p = vadd v0 (vadd (vsmul v (vsub v1 v0)) (vsmul w (vsub v2 v0))))
    (hg : epsQ ≤ gram_denom v0 v1 v2) :
    raw_vw p v0 v1 v2 = (v, w) := by
  have hg0 : gram_denom v0 v1 v2 ≠ 0 := by
    intro h
    rw [h] at hg
    revert hg
    decide
  have hfl : floor_denom (gram_denom v0 v1 v2) = gram_denom v0 v1 v2 := by
    rw [floor_denom, if_neg]
    rw [qAbs_eq, abs_of_nonneg (gram_denom_nonneg v0 v1 v2)]
    exact not_lt.2 hg
  have h20 : dot (vsub p v0) (vsub v1 v0) =
      v * dot (vsub v1 v0) (vsub v1 v0) + w * dot (vsub v1 v0) (vsub v2 v0) := by
    subst hp
    simp only [vsub_eq, vadd_eq, vsmul_eq, dot_eq]
    ring
  have h21 : dot (vsub p v0) (vsub v2 v0) =
      v * dot (vsub v1 v0) (vsub v2 v0) + w * dot (vsub v2 v0) (vsub v2 v0) := by
    subst hp
    simp only [vsub_eq, vadd_eq, vsmul_eq, dot_eq]
    ring
  rw [raw_vw]
  rw [hfl, h20, h21]
  simp only [qDiv_eq, qSub_eq, qMul_eq]
  rw [gram_denom_expand] at hg0 ⊢
  generalize hA : dot (vsub v1 v0) (vsub v1 v0) = a00 at hg0 ⊢
  generalize hB : dot (vsub v1 v0) (vsub v2 v0) = a01 at hg0 ⊢
  generalize hC : dot (vsub v2 v0) (vsub v2 v0) = a11 at hg0 ⊢
  rw [Prod.mk.injEq]
  constructor
  · rw [div_eq_iff hg0]
    ring
  · rw [div_eq_iff hg0]
    ring

/-- On a point lying exactly in (the closure of) a triangle whose determinant
is above the `1e-10` floor, the narrow phase is exact: the clamps are no-ops,
the renormalization divides by 1, the closest point is the point itself and
the squared distance is 0. -/
theorem ptTri_interior (p v0 v1 v2 : Vec3) (v w : ℚ)
    (hp : p = vadd v0 (vadd (vsmul v (vsub v1 v0)) (vsmul w (vsub v2 v0))))
    (h0v : 0 ≤ v) (h0w : 0 ≤ w) (hvw : v + w ≤ 1)
    (hg : epsQ ≤ gram_denom v0 v1 v2) :
    closest_point p v0 v1 v2 = p ∧
      (point_to_triangle_distance_and_projection p v0 v1 v2).distSq = 0 := by
  have hraw := raw_vw_exact p v0 v1 v2 v w hp hg
  have hcl : clamped_uvw p v0 v1 v2 = ⟨1 - v - w, v, w⟩ := by
    rw [clamped_uvw_def, hraw]
    dsimp only
    rw [clamp01_of_mem _ (by linarith) (by linarith),
        clamp01_of_mem v h0v (by linarith),
        clamp01_of_mem w h0w (by linarith)]
  have htot : clamp_total p v0 v1 v2 = 1 := by
    rw [clamp_total_def, hcl]
    dsimp only
    ring
  have hbar : renormed_bary p v0 v1 v2 = ⟨1 - v - w, v, w⟩ := by
    rw [renormed_bary, hcl, htot, renorm_total_of_one_le 1 le_rfl]
    dsimp only
    simp only [qDiv_eq, div_one]
  have hclosest : closest_point p v0 v1 v2 = p := by
    rw [closest_point_def, hbar]
    dsimp only
    subst hp
    apply vec3_ext <;> (simp only [vadd_eq, vsmul_eq, vsub_eq]; ring)
  refine ⟨hclosest, ?_⟩
  rw [ptTri_distSq_def, hclosest, (vsub_eq_zero_iff p p).2 rfl]
  decide

/-- The cross product of the edges is orthogonal to any in-plane displacement
anchored at `v0`: the signed offset of a point that is an affine combination
of the triangle's vertices vanishes. -/
theorem dot_cross_combo_zero (v0 v1 v2 : Vec3) (u v w : ℚ) (hsum : u + v + w = 1) :
    dot (vsub (vadd (vadd (vsmul u v0) (vsmul v v1)) (vsmul w v2)) v0)
      (cross (vsub v1 v0) (vsub v2 v0)) = 0 := by
  have hu : u = 1 - v - w := by linarith
  subst hu
  simp only [vadd_eq, vsub_eq, vsmul_eq, dot_eq, cross_eq]
  ring

/-- Squared distance 0 means the closest point is the query point itself. -/
theorem closest_eq_of_distSq_zero (p v0 v1 v2 : Vec3)
    (h : (point_to_triangle_distance_and_projection p v0 v1 v2).distSq = 0) :
    closest_point p v0 v1 v2 = p := by
  rw [ptTri_distSq_def] at h
  exact ((vsub_eq_zero_iff p (closest_point p v0 v1 v2)).1 ((normSq_eq_zero_iff _).1 h)).symm

/-! ## Batching is concatenation of slices -/

theorem cpu_batch_size_pos : 0 < cpu_batch_size := by decide

theorem slices_flatten (l : List α) (step k s0 : Nat) (hcov : l.length ≤ s0 + k * step) :
    ((strided_starts step k s0).map (fun s => arr_slice l s step)).flatten = l.drop s0 := by
  induction k generalizing s0 with
  | zero =>
    simp only [strided_starts, List.map_nil, List.flatten_nil]
    rw [eq_comm, List.drop_eq_nil_iff]
    omega
  | succ k ih =>
    simp only [strided_starts, List.map_cons, List.flatten_cons]
    have hexp : (k + 1) * step = k * step + step := by ring
    rw [ih (s0 + step) (by omega), arr_slice]
    rw [← List.drop_drop, List.take_append_drop]

theorem cover_of_ceil (n step : Nat) (hstep : 0 < step) : n ≤ ((n + step - 1) / step) * step := by
  have h := Nat.div_add_mod (n + step - 1) step
  have hr : (n + step - 1) % step < step := Nat.mod_lt _ hstep
  have : ((n + step - 1) / step) * step = step * ((n + step - 1) / step) := by ring
  omega

theorem range_step_slices_flatten (l : List α) (step : Nat) (hstep : 0 < step) :
    ((range_step l.length step).map (fun s => arr_slice l s step)).flatten = l := by
  rw [range_step]
  rw [slices_flatten l step _ 0 (by simpa using cover_of_ceil l.length step hstep)]
  exact List.drop_zero l

theorem map_slices_flatten (l : List α) (g : α → β) (step : Nat) (hstep : 0 < step) :
    ((range_step l.length step).map (fun s => (arr_slice l s step).map g)).flatten = l.map g := by
  have h1 : ((range_step l.length step).map (fun s => (arr_slice l s step).map g)) =
      ((range_step l.length step).map (fun s => arr_slice l s step)).map (·.map g) := by
    rw [List.map_map]
    rfl
  rw [h1, ← List.map_flatten, range_step_slices_flatten l step hstep]

/-! ## Normal forms: both strategies are per-point maps over the query points -/

theorem collect_records_append (f : Vec3 → Option MappingRecord) (l1 l2 : List Vec3) :
    collect_records f (l1 ++ l2) =
      match collect_records f l1, collect_records f l2 with
      | some a, some b => some (a ++ b)
      | _, _ => none := by
  induction l1 with
  | nil =>
    rw [List.nil_append]
    cases collect_records f l2 <;> rfl
  | cons p ps ih =>
    rw [List.cons_append, collect_records, collect_records, ih]
    cases f p <;> cases collect_records f ps <;> cases collect_records f l2 <;> rfl

theorem collect_batches_eq (f : Vec3 → Option MappingRecord) (bs : List (List Vec3)) :
    collect_batches f bs = collect_records f bs.flatten := by
  induction bs with
  | nil => rfl
  | cons b rest ih =>
    rw [collect_batches, List.flatten_cons, collect_records_append, ih]

theorem collect_records_of_forall (f : Vec3 → Option MappingRecord) (g : Vec3 → MappingRecord)
    (l : List Vec3) (h : ∀ p ∈ l, f p = some (g p)) :
    collect_records f l = some (l.map g) := by
  induction l with
  | nil => rfl
  | cons p ps ih =>
    rw [collect_records, h p (List.mem_cons_self p ps),
      ih (fun x hx => h x (List.mem_cons_of_mem p hx)), List.map_cons]

/-- The scanned best face index stays within range: the initial face is 0 and
every update is guarded by `face_idx < len(faces)`. -/
theorem scan_face_lt (fd : List FaceData) (p : Vec3) (cands : List Nat) (st : BestState)
    (hst : st.face < fd.length) : (scan_candidates fd p cands st).face < fd.length := by
  induction cands generalizing st with
  | nil => exact hst
  | cons fi rest ih =>
    rw [scan_candidates]
    by_cases hle : fd.length ≤ fi
    · rw [if_pos hle]
      exact ih st hst
    · rw [if_neg hle]
      dsimp only
      by_cases hlt : ltInf (point_to_triangle_distance_and_projection p (fd.getD fi fdZero).v0
          (fd.getD fi fdZero).v1 (fd.getD fi fdZero).v2).distSq st.dist = true
      · rw [if_pos hlt]
        exact ih _ (by dsimp only; omega)
      · rw [if_neg hlt]
        exact ih st hst

/-- Pure per-point CPU record; agrees with `per_point_cpu` whenever the mesh
has at least one face. -/
def cpu_record (fd : List FaceData) (centroids : List Vec3) (k : Nat) (p : Vec3) :
    MappingRecord :=
  ⟨(scan_candidates fd p (kd_query centroids p k) best_init).face,
   (scan_candidates fd p (kd_query centroids p k) best_init).bary,
   scaled_offset p (fd.getD (scan_candidates fd p (kd_query centroids p k) best_init).face
     fdZero),
   (scan_candidates fd p (kd_query centroids p k) best_init).dist⟩

theorem per_point_cpu_eq (fd : List FaceData) (centroids : List Vec3) (k : Nat) (p : Vec3)
    (hF : 0 < fd.length) :
    per_point_cpu fd centroids k p = some (cpu_record fd centroids k p) := by
  have hf : (scan_candidates fd p (kd_query centroids p k) best_init).face < fd.length :=
    scan_face_lt fd p _ best_init hF
  have hget : fd[(scan_candidates fd p (kd_query centroids p k) best_init).face]? =
      some (fd.getD (scan_candidates fd p (kd_query centroids p k) best_init).face fdZero) := by
    rw [List.getElem?_eq_getElem hf, List.getD_eq_getElem fd fdZero hf]
  rw [per_point_cpu, hget, cpu_record]

set_option maxHeartbeats 2000000 in
/-- Under `F ≥ 1` the CPU strategy is exactly the per-point map of
`cpu_record`: the batch loop concatenates disjoint slices and no read can go
out of range. -/
theorem compute_mapping_cpu_ok (points vertices : List Vec3) (faces : List Face) (k : Nat)
    (hF : 0 < faces.length) :
    compute_mapping_cpu points vertices faces k =
      .ok (points.map (cpu_record (compute_face_data vertices faces)
        ((compute_face_data vertices faces).map (·.centroid)) k)) := by
  have hlen : (compute_face_data vertices faces).length = faces.length := by
    rw [compute_face_data, List.length_map]
  have h1 : collect_batches (per_point_cpu (compute_face_data vertices faces)
        ((compute_face_data vertices faces).map (·.centroid)) k)
        ((range_step points.length cpu_batch_size).map
          (fun s => arr_slice points s cpu_batch_size)) =
      some (points.map (cpu_record (compute_face_data vertices faces)
        ((compute_face_data vertices faces).map (·.centroid)) k)) := by
    rw [collect_batches_eq, range_step_slices_flatten points cpu_batch_size cpu_batch_size_pos,
      collect_records_of_forall _
        (cpu_record (compute_face_data vertices faces)
          ((compute_face_data vertices faces).map (·.centroid)) k) _
        (fun p _ => per_point_cpu_eq _ _ k p (by omega))]
  show (match collect_batches (per_point_cpu (compute_face_data vertices faces)
        ((compute_face_data vertices faces).map (·.centroid)) k)
        ((range_step points.length cpu_batch_size).map
          (fun s => arr_slice points s cpu_batch_size)) with
      | some recs => CpuOutcome.ok recs
      | none => CpuOutcome.indexError) =
    CpuOutcome.ok (points.map (cpu_record (compute_face_data vertices faces)
      ((compute_face_data vertices faces).map (·.centroid)) k))
  rw [h1]

theorem compute_mapping_cuda_eq_map (points vertices : List Vec3) (faces : List Face)
    (bs fbs : Nat) (hbs : 0 < bs) :
    compute_mapping_cuda points vertices faces bs fbs =
      points.map (cuda_record (cuda_chunks (compute_face_data vertices faces) fbs)) := by
  rw [compute_mapping_cuda]
  exact map_slices_flatten points _ bs hbs

theorem strided_starts_mem (step k s0 x : Nat) :
    x ∈ strided_starts step k s0 ↔ ∃ i, i < k ∧ x = s0 + i * step := by
  induction k generalizing s0 with
  | zero =>
    simp [strided_starts]
  | succ k ih =>
    rw [strided_starts, List.mem_cons, ih (s0 + step)]
    constructor
    · rintro (rfl | ⟨i, hi, rfl⟩)
      · exact ⟨0, by omega, by omega⟩
      · refine ⟨i + 1, by omega, ?_⟩
        have : (i + 1) * step = i * step + step := by ring
        omega
    · rintro ⟨i, hi, rfl⟩
      cases i with
      | zero => left; omega
      | succ j =>
        right
        refine ⟨j, by omega, ?_⟩
        have : (j + 1) * step = j * step + step := by ring
        omega

theorem range_step_start_lt (stop step x : Nat) (hstep : 0 < step)
    (hx : x ∈ range_step stop step) : x < stop := by
  rw [range_step, strided_starts_mem] at hx
  obtain ⟨i, hi, rfl⟩ := hx
  have h1 : i + 1 ≤ (stop + step - 1) / step := hi
  have h2 := (Nat.le_div_iff_mul_le hstep).1 h1
  have h3 : (i + 1) * step = i * step + step := by ring
  omega

theorem arr_slice_length (l : List α) (s n : Nat) :
    (arr_slice l s n).length = min n (l.length - s) := by
  rw [arr_slice, List.length_take, List.length_drop]

theorem arr_slice_getElem (l : List α) (s n j : Nat) (hj : j < (arr_slice l s n).length)
    (hl : s + j < l.length) :
    (arr_slice l s n).getD j = l.getD (s + j) := by
  funext d
  rw [arr_slice] at hj ⊢
  rw [List.getD_eq_getElem _ d hj, List.getD_eq_getElem _ d hl, List.getElem_take,
    List.getElem_drop]

/-- Structure of the face chunks: each is the nonempty slice at a start
`< F`, entirely within range. -/
theorem cuda_chunks_mem (fd : List FaceData) (fbs : Nat) (hfbs : 0 < fbs)
    (s : Nat) (ch : List FaceData) (h : (s, ch) ∈ cuda_chunks fd fbs) :
    s < fd.length ∧ ch ≠ [] ∧ s + ch.length ≤ fd.length ∧
      ∀ j, (hj : j < ch.length) → ch.getD j fdZero = fd.getD (s + j) fdZero := by
  rw [cuda_chunks, List.mem_map] at h
  obtain ⟨s', hs', heq⟩ := h
  have h1 : s' = s := congrArg Prod.fst heq
  have h2 : arr_slice fd s' fbs = ch := congrArg Prod.snd heq
  subst h1
  subst h2
  have hlt := range_step_start_lt fd.length fbs s' hfbs hs'
  have hlen := arr_slice_length fd s' fbs
  refine ⟨hlt, ?_, ?_, ?_⟩
  · intro hnil
    rw [hnil] at hlen
    simp only [List.length_nil] at hlen
    omega
  · omega
  · intro j hj
    have hl : s' + j < fd.length := by omega
    exact congrFun (arr_slice_getElem fd s' fbs j hj hl) fdZero

/-- Every face index `f < F` lies in exactly the chunk starting at
`(f / fbs) · fbs`, at local offset `f mod fbs`. -/
theorem cuda_chunks_cover (fd : List FaceData) (fbs : Nat) (hfbs : 0 < fbs)
    (f : Nat) (hf : f < fd.length) :
    ∃ s ch, (s, ch) ∈ cuda_chunks fd fbs ∧ ∃ j, j < ch.length ∧ s + j = f := by
  refine ⟨f / fbs * fbs, arr_slice fd (f / fbs * fbs) fbs, ?_, f % fbs, ?_, ?_⟩
  · rw [cuda_chunks, List.mem_map]
    refine ⟨f / fbs * fbs, ?_, rfl⟩
    rw [range_step, strided_starts_mem]
    refine ⟨f / fbs, ?_, by omega⟩
    have hdm := Nat.div_add_mod f fbs
    have hmod : f % fbs < fbs := Nat.mod_lt _ hfbs
    rw [Nat.lt_iff_add_one_le, Nat.le_div_iff_mul_le hfbs]
    have h1 : (f / fbs + 1) * fbs = fbs * (f / fbs) + fbs := by ring
    omega
  · rw [arr_slice_length]
    have hdm := Nat.div_add_mod f fbs
    have hmod : f % fbs < fbs := Nat.mod_lt _ hfbs
    have h1 : f / fbs * fbs = fbs * (f / fbs) := by ring
    omega
  · have hdm := Nat.div_add_mod f fbs
    have h1 : f / fbs * fbs = fbs * (f / fbs) := by ring
    omega

/-! ## Properties of `argminL` (`np.argmin`) -/

theorem argminL_lt (l : List ℚ) (hl : l ≠ []) : (argminL l).1 < l.length := by
  induction l with
  | nil => exact absurd rfl hl
  | cons d rest ih =>
    cases rest with
    | nil => simp [argminL]
    | cons e tail =>
      rw [argminL]
      have h := ih (List.cons_ne_nil e tail)
      split
      · simpa using h
      · simp

theorem argminL_getD (l : List ℚ) (hl : l ≠ []) : l.getD (argminL l).1 0 = (argminL l).2 := by
  induction l with
  | nil => exact absurd rfl hl
  | cons d rest ih =>
    cases rest with
    | nil => simp [argminL]
    | cons e tail =>
      rw [argminL]
      split
      · simpa using ih (List.cons_ne_nil e tail)
      · simp

theorem argminL_le (l : List ℚ) (x : ℚ) (hx : x ∈ l) : (argminL l).2 ≤ x := by
  induction l with
  | nil => cases hx
  | cons d rest ih =>
    cases rest with
    | nil =>
      rw [List.mem_singleton] at hx
      subst hx
      simp [argminL]
    | cons e tail =>
      rw [argminL]
      rw [List.mem_cons] at hx
      rcases hx with rfl | hx
      · split
        · next h => exact le_of_lt h
        · exact le_refl x
      · have h2 := ih hx
        split
        · exact h2
        · next h => exact le_trans (not_lt.1 h) h2

theorem argminL_unique (l : List ℚ) (j : Nat) (hj : j < l.length)
    (hmin : ∀ j2, j2 < l.length → j2 ≠ j → l.getD j 0 < l.getD j2 0) :
    argminL l = (j, l.getD j 0) := by
  induction l generalizing j with
  | nil => simp at hj
  | cons d rest ih =>
    cases rest with
    | nil =>
      cases j with
      | zero => simp [argminL]
      | succ n =>
        simp only [List.length_singleton] at hj
        omega
    | cons e tail =>
      rw [argminL]
      cases j with
      | zero =>
        have hr1 := argminL_lt (e :: tail) (List.cons_ne_nil e tail)
        have hr2 := argminL_getD (e :: tail) (List.cons_ne_nil e tail)
        have hd : d < (e :: tail).getD (argminL (e :: tail)).1 0 := by
          have := hmin ((argminL (e :: tail)).1 + 1) (by simpa using hr1) (by omega)
          simpa using this
        rw [hr2] at hd
        rw [if_neg (not_lt.2 (le_of_lt hd))]
        simp
      | succ j' =>
        have hj' : j' < (e :: tail).length := by simpa using hj
        have hmin' : ∀ j2, j2 < (e :: tail).length → j2 ≠ j' →
            (e :: tail).getD j' 0 < (e :: tail).getD j2 0 := by
          intro j2 hj2 hne
          have := hmin (j2 + 1) (by simpa using hj2) (by omega)
          simpa using this
        rw [ih j' hj' hmin']
        have hd : (e :: tail).getD j' 0 < d := by
          have := hmin 0 (by simp) (by omega)
          simpa using this
        rw [if_pos hd]
        simp

/-! ## Invariants of the exhaustive chunk fold -/

theorem ltInf_none (d : ℚ) : ltInf d none = true := rfl

theorem ltInf_some (d x : ℚ) : ltInf d (some x) = decide (d < x) := rfl

/-- One step of the chunk fold, nonempty chunk, written without the `match`. -/
theorem cuda_chunk_update_cons (p : Vec3) (s : Nat) (f0 : FaceData) (tail : List FaceData)
    (st : CudaState) :
    cuda_chunk_update p s (f0 :: tail) st =
      (if ltInf (argminL (((f0 :: tail).map
            (fun f => point_to_triangle_distance_and_projection p f.v0 f.v1 f.v2)).map
            (·.distSq))).2 st.dist then
        ⟨s + (argminL (((f0 :: tail).map
            (fun f => point_to_triangle_distance_and_projection p f.v0 f.v1 f.v2)).map
            (·.distSq))).1,
         (((f0 :: tail).map
            (fun f => point_to_triangle_distance_and_projection p f.v0 f.v1 f.v2)).getD
            (argminL (((f0 :: tail).map
              (fun f => point_to_triangle_distance_and_projection p f.v0 f.v1 f.v2)).map
              (·.distSq))).1 nrZero).bary,
         some (argminL (((f0 :: tail).map
            (fun f => point_to_triangle_distance_and_projection p f.v0 f.v1 f.v2)).map
            (·.distSq))).2,
         scaled_offset p ((f0 :: tail).getD
            (wrap_idx (argminL (((f0 :: tail).map
              (fun f => point_to_triangle_distance_and_projection p f.v0 f.v1 f.v2)).map
              (·.distSq))).1 s (f0 :: tail).length) fdZero)⟩
      else st) := by
  rw [cuda_chunk_update]

/-- The face index selected by the exhaustive fold stays within range. -/
theorem cuda_fold_face_lt (p : Vec3) (F : Nat) (chunks : List (Nat × List FaceData))
    (hch : ∀ sc ∈ chunks, sc.1 + sc.2.length ≤ F) (st : CudaState) (hst : st.face < F) :
    (chunks.foldl (fun st sc => cuda_chunk_update p sc.1 sc.2 st) st).face < F := by
  induction chunks generalizing st with
  | nil => exact hst
  | cons sc rest ih =>
    rw [List.foldl_cons]
    apply ih (fun x hx => hch x (List.mem_cons_of_mem _ hx))
    rcases sc with ⟨s, ch⟩
    cases ch with
    | nil => exact hst
    | cons f0 tail =>
      have hb := hch (s, f0 :: tail) (List.mem_cons_self _ _)
      rw [cuda_chunk_update_cons]
      split
      · have hlt := argminL_lt (((f0 :: tail).map
            (fun f => point_to_triangle_distance_and_projection p f.v0 f.v1 f.v2)).map
            (·.distSq)) (by simp)
        simp only [List.length_map] at hlt
        dsimp only at hb ⊢
        omega
      · exact hst

/-- After any update the stored barycentric row is a narrow-phase output, so
it satisfies the partition property; from the `inf`-initialized state the
first nonempty chunk always updates. -/
theorem cuda_fold_bary_good (p : Vec3) (chunks : List (Nat × List FaceData)) (st : CudaState)
    (h : GoodBary st.bary ∨ (st.dist = none ∧ ∃ sc ∈ chunks, sc.2 ≠ [])) :
    GoodBary ((chunks.foldl (fun st sc => cuda_chunk_update p sc.1 sc.2 st) st).bary) := by
  induction chunks generalizing st with
  | nil =>
    rcases h with h | ⟨_, sc, hsc, _⟩
    · exact h
    · cases hsc
  | cons sc rest ih =>
    rw [List.foldl_cons]
    rcases sc with ⟨s, ch⟩
    cases ch with
    | nil =>
      rw [cuda_chunk_update]
      apply ih
      rcases h with h | ⟨hd, sc', hsc', hne⟩
      · exact Or.inl h
      · rcases List.mem_cons.1 hsc' with rfl | hmem
        · exact absurd rfl hne
        · exact Or.inr ⟨hd, sc', hmem, hne⟩
    | cons f0 tail =>
      have hgood : ∀ st', GoodBary ((cuda_chunk_update p s (f0 :: tail) st').bary) ∨
          cuda_chunk_update p s (f0 :: tail) st' = st' := by
        intro st'
        rw [cuda_chunk_update_cons]
        split
        · left
          have hlt := argminL_lt (((f0 :: tail).map
              (fun f => point_to_triangle_distance_and_projection p f.v0 f.v1 f.v2)).map
              (·.distSq)) (by simp)
          rw [List.length_map, List.length_map] at hlt
          dsimp only
          rw [List.getD_eq_getElem _ nrZero (by rw [List.length_map]; exact hlt),
            List.getElem_map]
          exact bary_partition p _ _ _
        · right; rfl
      rcases h with h | ⟨hd, _, _, _⟩
      · rcases hgood st with hg | heq
        · exact ih _ (Or.inl hg)
        · rw [heq]
          exact ih st (Or.inl h)
      · -- st.dist = none: the update fires on this nonempty chunk
        have hupd : GoodBary ((cuda_chunk_update p s (f0 :: tail) st).bary) := by
          rcases hgood st with hg | heq
          · exact hg
          · exfalso
            rw [cuda_chunk_update_cons, hd] at heq
            rw [if_pos (ltInf_none _)] at heq
            have hface := congrArg CudaState.dist heq
            dsimp only at hface
            rw [hd] at hface
            exact Option.some_ne_none _ hface
        exact ih _ (Or.inl hupd)

/-- The scanned best barycentric row always satisfies the partition property:
the start value is `(1/3, 1/3, 1/3)` and every update stores a narrow-phase
output row. -/
theorem scan_bary_good (fd : List FaceData) (p : Vec3) (cands : List Nat) (st : BestState)
    (hst : GoodBary st.bary) : GoodBary ((scan_candidates fd p cands st).bary) := by
  induction cands generalizing st with
  | nil => exact hst
  | cons fi rest ih =>
    rw [scan_candidates]
    by_cases hle : fd.length ≤ fi
    · rw [if_pos hle]
      exact ih st hst
    · rw [if_neg hle]
      dsimp only
      by_cases hlt : ltInf (point_to_triangle_distance_and_projection p (fd.getD fi fdZero).v0
          (fd.getD fi fdZero).v1 (fd.getD fi fdZero).v2).distSq st.dist = true
      · rw [if_pos hlt]
        exact ih _ (bary_partition p _ _ _)
      · rw [if_neg hlt]
        exact ih st hst

theorem goodBary_init : GoodBary best_init.bary := by
  refine ⟨?_, by decide, by decide, by decide, by decide, by decide, by decide⟩
  show best_init.bary.u + best_init.bary.v + best_init.bary.w = 1
  rw [← qAdd_eq, ← qAdd_eq]
  decide

theorem cuda_record_proj (chunks : List (Nat × List FaceData)) (p : Vec3) :
    (cuda_record chunks p).faceIndex = (cuda_per_point chunks p).face ∧
    (cuda_record chunks p).bary = (cuda_per_point chunks p).bary ∧
    (cuda_record chunks p).offScaled = (cuda_per_point chunks p).offScaled ∧
    (cuda_record chunks p).distSq = (cuda_per_point chunks p).dist := by
  rw [cuda_record]
  rcases cuda_per_point chunks p with ⟨f, b, d, o⟩
  exact ⟨rfl, rfl, rfl, rfl⟩

theorem compute_face_data_length (vertices : List Vec3) (faces : List Face) :
    (compute_face_data vertices faces).length = faces.length := by
  rw [compute_face_data, List.length_map]

/-- With at least one face, the chunk list has a nonempty chunk. -/
theorem cuda_chunks_nonempty (fd : List FaceData) (fbs : Nat) (hfbs : 0 < fbs)
    (hF : 0 < fd.length) : ∃ sc ∈ cuda_chunks fd fbs, sc.2 ≠ [] := by
  obtain ⟨s, ch, hmem, j, hj, _⟩ := cuda_chunks_cover fd fbs hfbs 0 hF
  refine ⟨(s, ch), hmem, ?_⟩
  intro hnil
  subst hnil
  simp at hj

/-! ## Concrete meshes used by counterexamples and witnesses -/

/-- The spec's unit-square mesh (claim C2): vertices of the unit square in the
`z = 0` plane. -/
def sqVerts : List Vec3 := [⟨0,0,0⟩, ⟨1,0,0⟩, ⟨1,1,0⟩, ⟨0,1,0⟩]

def sqFaces : List Face := [⟨0,1,2⟩, ⟨0,2,3⟩]

/-- The spec's query point `(0.25, 0.25, 0.5)`. -/
def pSq : Vec3 := ⟨q 1 4, q 1 4, q 1 2⟩

/-- The record both strategies produce for `pSq` on the square mesh. -/
def recSq : MappingRecord := ⟨0, ⟨q 3 4, 0, q 1 4⟩, q 1 2, some (q 1 4)⟩

/-- A single unit right triangle (witness mesh). -/
def uVerts : List Vec3 := [⟨0,0,0⟩, ⟨1,0,0⟩, ⟨0,1,0⟩]

def uFaces : List Face := [⟨0,1,2⟩]

/-- A degenerate mesh: the triangle's first two vertices coincide. -/
def degVerts : List Vec3 := [⟨0,0,0⟩, ⟨0,0,0⟩, ⟨1,0,0⟩]

def degFaces : List Face := [⟨0,1,2⟩]

/-! ## Claim C4 -/

/-- C4: for every record of every MappingResult produced by either strategy on
a mesh with at least one face, the barycentric coordinates sum to exactly 1
(hence within the 1e-5 tolerance) with each component in [0, 1]; moreover the
clamped sum fed to the renormalization is at least 1 — never below the 1e-10
fallback threshold — because `u` is defined as `1 - v - w`, so the fallback
branch of line 287 never fires. -/
theorem claim_C4_partition_of_unity :
    (∀ p v0 v1 v2 : Vec3, 1 ≤ clamp_total p v0 v1 v2 ∧
        renorm_total (clamp_total p v0 v1 v2) = clamp_total p v0 v1 v2) ∧
    (∀ (points vertices : List Vec3) (faces : List Face) (k : Nat)
        (recs : List MappingRecord), 0 < faces.length →
        compute_mapping_cpu points vertices faces k = .ok recs →
        ∀ r ∈ recs, GoodBary r.bary ∧ |r.bary.u + r.bary.v + r.bary.w - 1| ≤ q 1 (10 ^ 5)) ∧
    (∀ (points vertices : List Vec3) (faces : List Face), 0 < faces.length →
        ∀ r ∈ compute_mapping_cuda_default points vertices faces,
          GoodBary r.bary ∧ |r.bary.u + r.bary.v + r.bary.w - 1| ≤ q 1 (10 ^ 5)) := by
  have htol : ∀ b : Bary, GoodBary b → |b.u + b.v + b.w - 1| ≤ q 1 (10 ^ 5) := by
    intro b hb
    rw [hb.1]
    simp only [sub_self, abs_zero]
    decide
  refine ⟨fun p v0 v1 v2 => ⟨one_le_clamp_total p v0 v1 v2, renorm_total_clamp_eq p v0 v1 v2⟩,
    ?_, ?_⟩
  · intro points vertices faces k recs hF hok r hr
    rw [compute_mapping_cpu_ok points vertices faces k hF] at hok
    obtain rfl : (points.map (cpu_record (compute_face_data vertices faces)
        ((compute_face_data vertices faces).map (·.centroid)) k)) = recs :=
      CpuOutcome.ok.inj hok
    rw [List.mem_map] at hr
    obtain ⟨p, _, rfl⟩ := hr
    have hgood : GoodBary (cpu_record (compute_face_data vertices faces)
        ((compute_face_data vertices faces).map (·.centroid)) k p).bary := by
      rw [cpu_record]
      rcases hscan : scan_candidates (compute_face_data vertices faces) p _ best_init
        with ⟨d, fi, b⟩
      have := scan_bary_good (compute_face_data vertices faces) p
        (kd_query ((compute_face_data vertices faces).map (·.centroid)) p k) best_init
        goodBary_init
      rw [hscan] at this
      exact this
    exact ⟨hgood, htol _ hgood⟩
  · intro points vertices faces hF r hr
    rw [compute_mapping_cuda_default,
      compute_mapping_cuda_eq_map points vertices faces 1000 50000 (by decide)] at hr
    rw [List.mem_map] at hr
    obtain ⟨p, _, rfl⟩ := hr
    have hflen : 0 < (compute_face_data vertices faces).length := by
      rw [compute_face_data_length]; exact hF
    have hgood : GoodBary (cuda_per_point
        (cuda_chunks (compute_face_data vertices faces) 50000) p).bary := by
      rw [cuda_per_point]
      exact cuda_fold_bary_good p _ cuda_init
        (Or.inr ⟨rfl, cuda_chunks_nonempty _ 50000 (by decide) hflen⟩)
    rw [(cuda_record_proj _ p).2.1]
    exact ⟨hgood, htol _ hgood⟩

/-- Witness for C4 at the concrete square mesh and spec query point. -/
theorem claim_C4_witness :
    (1 ≤ clamp_total pSq ⟨0,0,0⟩ ⟨1,0,0⟩ ⟨1,1,0⟩) ∧
    (GoodBary recSq.bary ∧ |recSq.bary.u + recSq.bary.v + recSq.bary.w - 1| ≤ q 1 (10 ^ 5)) ∧
    (GoodBary recSq.bary ∧ |recSq.bary.u + recSq.bary.v + recSq.bary.w - 1| ≤ q 1 (10 ^ 5)) :=
  ⟨(claim_C4_partition_of_unity.1 pSq ⟨0,0,0⟩ ⟨1,0,0⟩ ⟨1,1,0⟩).1,
   claim_C4_partition_of_unity.2.1 [pSq] sqVerts sqFaces 8 [recSq] (by decide) (by decide)
     recSq (by decide),
   claim_C4_partition_of_unity.2.2 [pSq] sqVerts sqFaces (by decide) recSq (by decide)⟩

/-! ## Claim C9 -/

/-- C9: every face index in the result lies in `[0, F)` for meshes with
`F ≥ 1`, in both strategies and for every `k` (including `k > F`: scipy's
missing-neighbour index `F` is skipped by the `face_idx >= len(faces)` guard
and the fallback `best_face = 0` is valid). -/
theorem claim_C9_face_index_valid :
    (∀ (points vertices : List Vec3) (faces : List Face) (k : Nat)
        (recs : List MappingRecord), 0 < faces.length →
        compute_mapping_cpu points vertices faces k = .ok recs →
        ∀ r ∈ recs, r.faceIndex < faces.length) ∧
    (∀ (points vertices : List Vec3) (faces : List Face), 0 < faces.length →
        ∀ r ∈ compute_mapping_cuda_default points vertices faces,
          r.faceIndex < faces.length) := by
  constructor
  · intro points vertices faces k recs hF hok r hr
    rw [compute_mapping_cpu_ok points vertices faces k hF] at hok
    obtain rfl : (points.map (cpu_record (compute_face_data vertices faces)
        ((compute_face_data vertices faces).map (·.centroid)) k)) = recs :=
      CpuOutcome.ok.inj hok
    rw [List.mem_map] at hr
    obtain ⟨p, _, rfl⟩ := hr
    rw [cpu_record]
    have hlen : 0 < (compute_face_data vertices faces).length := by
      rw [compute_face_data_length]; exact hF
    have := scan_face_lt (compute_face_data vertices faces) p
      (kd_query ((compute_face_data vertices faces).map (·.centroid)) p k) best_init hlen
    rcases hscan : scan_candidates (compute_face_data vertices faces) p _ best_init
      with ⟨d, fi, b⟩
    rw [hscan] at this
    rw [compute_face_data_length] at this
    exact this
  · intro points vertices faces hF r hr
    rw [compute_mapping_cuda_default,
      compute_mapping_cuda_eq_map points vertices faces 1000 50000 (by decide)] at hr
    rw [List.mem_map] at hr
    obtain ⟨p, _, rfl⟩ := hr
    rw [(cuda_record_proj _ p).1]
    have hflen : 0 < (compute_face_data vertices faces).length := by
      rw [compute_face_data_length]; exact hF
    have hch : ∀ sc ∈ cuda_chunks (compute_face_data vertices faces) 50000,
        sc.1 + sc.2.length ≤ (compute_face_data vertices faces).length := by
      rintro ⟨s, ch⟩ hmem
      exact (cuda_chunks_mem _ 50000 (by decide) s ch hmem).2.2.1
    have := cuda_fold_face_lt p (compute_face_data vertices faces).length
      (cuda_chunks (compute_face_data vertices faces) 50000) hch cuda_init hflen
    rw [cuda_per_point]
    rw [compute_face_data_length] at this
    exact this

/-- Witness for C9 at the concrete square mesh, with `k = 8 > F = 2`. -/
theorem claim_C9_witness :
    recSq.faceIndex < sqFaces.length ∧ recSq.faceIndex < sqFaces.length :=
  ⟨claim_C9_face_index_valid.1 [pSq] sqVerts sqFaces 8 [recSq] (by decide) (by decide)
     recSq (by decide),
   claim_C9_face_index_valid.2 [pSq] sqVerts sqFaces (by decide) recSq (by decide)⟩

/-! ## Claim C7 -/

/-- C7: on any mesh containing a degenerate triangle (two coincident
vertices) and for any query point, no division in the pipeline can blow up:
the squared normalization divisor `max(‖c‖, 1e-10)²` of the face normals is
positive for every face, the floored Gram determinant keeps absolute value at
least `1e-10` (in particular it is nonzero), and the barycentric
renormalization total is positive — so in exact arithmetic every computed
normal, barycentric coordinate and distance is a well-defined (finite)
rational; no NaN/Inf can arise. -/
theorem claim_C7_degenerate_robustness (vertices : List Vec3) (faces : List Face) (p : Vec3)
    (hdeg : ∃ t ∈ faces, getV vertices t.i0 = getV vertices t.i1 ∨
      getV vertices t.i1 = getV vertices t.i2 ∨ getV vertices t.i0 = getV vertices t.i2) :
    (∀ fdat ∈ compute_face_data vertices faces, 0 < norm_scale_sq fdat.crossSq) ∧
    (∀ v0 v1 v2 : Vec3, epsQ ≤ qAbs (floor_denom (gram_denom v0 v1 v2)) ∧
      floor_denom (gram_denom v0 v1 v2) ≠ 0) ∧
    (∀ v0 v1 v2 : Vec3, 0 < renorm_total (clamp_total p v0 v1 v2)) :=
  ⟨fun fdat _ => norm_scale_sq_pos fdat.crossSq,
   fun v0 v1 v2 => floor_denom_guard (gram_denom v0 v1 v2),
   fun v0 v1 v2 => renorm_total_pos p v0 v1 v2⟩

/-- Witness for C7 at a concrete mesh whose only triangle has two coincident
vertices. -/
theorem claim_C7_witness :
    (0 < norm_scale_sq ((compute_face_data degVerts degFaces).getD 0 fdZero).crossSq) ∧
    (floor_denom (gram_denom ⟨0,0,0⟩ ⟨0,0,0⟩ ⟨1,0,0⟩) ≠ 0) ∧
    (0 < renorm_total (clamp_total ⟨0,0,1⟩ ⟨0,0,0⟩ ⟨0,0,0⟩ ⟨1,0,0⟩)) :=
  ⟨(claim_C7_degenerate_robustness degVerts degFaces ⟨0,0,1⟩ (by decide)).1 _ (by decide),
   ((claim_C7_degenerate_robustness degVerts degFaces ⟨0,0,1⟩ (by decide)).2.1
     ⟨0,0,0⟩ ⟨0,0,0⟩ ⟨1,0,0⟩).2,
   (claim_C7_degenerate_robustness degVerts degFaces ⟨0,0,1⟩ (by decide)).2.2
     ⟨0,0,0⟩ ⟨0,0,0⟩ ⟨1,0,0⟩⟩

/-! ## Claim C10 -/

/-- C10: `save_mapping` with a format other than `npz`, `bin` or `json`
raises `ValueError` and performs no write: the dispatch checks the format
string before any effect, and the `else` branch contains only the `raise`. -/
theorem claim_C10_unknown_format (result : List MappingRecord) (path fmt : String)
    (h1 : fmt ≠ "npz") (h2 : fmt ≠ "bin") (h3 : fmt ≠ "json") :
    save_mapping result path fmt = .valueError fmt := by
  rw [save_mapping, if_neg h1, if_neg h2, if_neg h3]

/-- Witness for C10 at the concrete format string `"xml"`. -/
theorem claim_C10_witness :
    save_mapping [] "mapping.out" "xml" = .valueError "xml" :=
  claim_C10_unknown_format [] "mapping.out" "xml" (by decide) (by decide) (by decide)

/-! ## Claim C2 (corrected): the concrete square scenario -/

/-- C2 counterexample: on the spec's square mesh with query point
`(0.25, 0.25, 0.5)`, both strategies yield barycentric coordinates
`(3/4, 0, 1/4)` — not approximately `(0.5, 0.25, 0.25)` as claimed: the `u`
and `v` components are off the claimed values by exactly `1/4`, far beyond
any floating-point tolerance (checked here against a generous `1/100`).
(The exhaustive strategy's selection is order-determined; the CPU candidate
order at this exact centroid tie follows the model's index-order refinement
of scipy's unspecified tie order.) -/
theorem claim_C2_counterexample :
    compute_mapping_cpu [pSq] sqVerts sqFaces 8 = .ok [recSq] ∧
    compute_mapping_cuda_default [pSq] sqVerts sqFaces = [recSq] ∧
    recSq.bary = ⟨q 3 4, 0, q 1 4⟩ ∧
    ¬(qAbs (qSub recSq.bary.u (q 1 2)) ≤ q 1 100 ∧
      qAbs (qSub recSq.bary.v (q 1 4)) ≤ q 1 100) :=
  ⟨by decide, by decide, by decide, by decide⟩

/-- C2 amended: the scenario yields faceIndex 0, barycentric coordinates
exactly `(3/4, 0, 1/4)`, normal offset `1/2` (the scaled offset equals the
true offset here because both faces have unit cross-product norm, as the last
conjunct records) and squared distance `1/4`, i.e. distance `0.5`. -/
theorem claim_C2_amended :
    compute_mapping_cpu [pSq] sqVerts sqFaces 8 = .ok [recSq] ∧
    compute_mapping_cuda_default [pSq] sqVerts sqFaces = [recSq] ∧
    recSq = ⟨0, ⟨q 3 4, 0, q 1 4⟩, q 1 2, some (q 1 4)⟩ ∧
    (compute_face_data sqVerts sqFaces).map (·.crossSq) = [1, 1] :=
  ⟨by decide, by decide, by decide, by decide⟩

/-! ## Claim C6 (corrected): empty inputs -/

theorem scan_candidates_nil_fd (p : Vec3) (cands : List Nat) (st : BestState) :
    scan_candidates [] p cands st = st := by
  induction cands with
  | nil => rfl
  | cons fi rest ih =>
    rw [scan_candidates,
      if_pos (show List.length ([] : List FaceData) ≤ fi from Nat.zero_le fi)]
    exact ih

/-- C6 counterexample: mapping a nonempty PointSet against a zero-face mesh
does not fail with a ValidationError raised before any mapping work — no
ValidationError exists anywhere in the source.  The CPU strategy crashes with
a numpy IndexError deep inside the per-point loop (reading `normals[0]` of an
empty array, after the KDTree was already built), and the exhaustive strategy
raises nothing at all, silently returning a defective record (face index 0,
zero barycentric row, infinite distance). -/
theorem claim_C6_counterexample :
    compute_mapping_cpu [⟨0,0,1⟩] uVerts [] 8 = .indexError ∧
    compute_mapping_cuda_default [⟨0,0,1⟩] uVerts [] = [⟨0, ⟨0,0,0⟩, 0, none⟩] :=
  ⟨by decide, by decide⟩

/-- C6 amended: an empty PointSet yields a MappingResult with zero records
and no error in both strategies (for any mesh); a nonempty PointSet against
zero faces is not validated: the CPU strategy raises a numpy IndexError from
inside the mapping loop, and the exhaustive strategy returns one defective
record (face 0, infinite distance) per point without raising. -/
theorem claim_C6_empty_behaviour :
    (∀ (vertices : List Vec3) (faces : List Face) (k : Nat),
      compute_mapping_cpu [] vertices faces k = .ok [] ∧
      compute_mapping_cuda_default [] vertices faces = []) ∧
    (∀ (p : Vec3) (ps : List Vec3) (vertices : List Vec3) (k : Nat),
      compute_mapping_cpu (p :: ps) vertices [] k = .indexError) ∧
    (∀ (p : Vec3) (ps : List Vec3) (vertices : List Vec3),
      compute_mapping_cuda_default (p :: ps) vertices [] =
        (p :: ps).map (fun x => ⟨0, ⟨0,0,0⟩, 0, none⟩)) := by
  refine ⟨fun vertices faces k => ⟨rfl, rfl⟩, ?_, ?_⟩
  · intro p ps vertices k
    have hnone : per_point_cpu ([] : List FaceData)
        (([] : List FaceData).map (·.centroid)) k p = none := by
      rw [per_point_cpu, scan_candidates_nil_fd]
      rfl
    have h1 : collect_batches (per_point_cpu ([] : List FaceData)
          (([] : List FaceData).map (·.centroid)) k)
          ((range_step (p :: ps).length cpu_batch_size).map
            (fun s => arr_slice (p :: ps) s cpu_batch_size)) = none := by
      rw [collect_batches_eq, range_step_slices_flatten _ _ cpu_batch_size_pos]
      rw [collect_records, hnone]
    show (match collect_batches (per_point_cpu ([] : List FaceData)
          (([] : List FaceData).map (·.centroid)) k)
          ((range_step (p :: ps).length cpu_batch_size).map
            (fun s => arr_slice (p :: ps) s cpu_batch_size)) with
        | some recs => CpuOutcome.ok recs
        | none => CpuOutcome.indexError) = CpuOutcome.indexError
    rw [h1]
  · intro p ps vertices
    rw [compute_mapping_cuda_default,
      compute_mapping_cuda_eq_map (p :: ps) vertices [] 1000 50000 (by decide)]
    rw [show compute_face_data vertices [] = [] from rfl]
    exact List.map_congr_left (fun x _ => rfl)

/-! ## Concrete meshes for the cross-strategy and offset claims -/

/-- C3 tie mesh: two coplanar triangles in the `z = 0` plane sharing vertex 0,
both containing the in-plane projection of the query point, so both are at
narrow-phase distance 1 from it; face 1 (the small triangle) has the strictly
nearer centroid, so there is no centroid tie and the KDTree candidate order is
`[1, 0]` under any tie refinement. -/
def tieVerts : List Vec3 :=
  [⟨-1,-1,0⟩, ⟨5,-1,0⟩, ⟨-1,5,0⟩, ⟨2,-1,0⟩, ⟨-1,2,0⟩]

def tieFaces : List Face := [⟨0,1,2⟩, ⟨0,3,4⟩]

def pTie : Vec3 := ⟨0, 0, 1⟩

/-- C1/C8 mesh: three distant decoy triangles (faces 0-2), the unit triangle
at the origin (face 3, nearest to the query point), and a triangle in the
`x = 5` plane (face 4).  All five faces have unit-norm cross products, so the
scaled offsets in the records equal the source's float offsets exactly. -/
def m5Verts : List Vec3 :=
  [⟨100,0,0⟩, ⟨101,0,0⟩, ⟨100,1,0⟩,
   ⟨110,0,0⟩, ⟨111,0,0⟩, ⟨110,1,0⟩,
   ⟨120,0,0⟩, ⟨121,0,0⟩, ⟨120,1,0⟩,
   ⟨0,0,0⟩, ⟨1,0,0⟩, ⟨0,1,0⟩,
   ⟨5,0,0⟩, ⟨5,1,0⟩, ⟨5,0,1⟩]

def m5Faces : List Face := [⟨0,1,2⟩, ⟨3,4,5⟩, ⟨6,7,8⟩, ⟨9,10,11⟩, ⟨12,13,14⟩]

def pM5 : Vec3 := ⟨q 1 4, q 1 4, q 1 2⟩

set_option maxHeartbeats 4000000 in
/-- C1 (code bug, line 522): in the exhaustive strategy with
`face_batch_size = 3` the five faces split into chunks `[0,1,2]` and `[3,4]`.
The best face for `pM5` is face 3, found at local argmin index 0 of the second
chunk (`face_start = 3`) — and the mapping does return faceIndex 3.  But line
522's `normals_batch[min_face_idx - face_start]` subtracts `face_start` from
the already chunk-local argmin, indexing the 2-face chunk at `0 - 3 = -3`,
which CuPy wraps to local index 1, i.e. face 4.  The returned offset is
therefore `dot(pM5 - v0(face 4), n(face 4)) = -19/4` instead of the spec's
`dot(pM5 - v0(face 3), n(face 3)) = 1/2`, for the very record whose faceIndex
is 3.  (All faces of this mesh have unit cross norm — last conjunct — so the
scaled offsets shown are exactly the source's float offsets.) -/
theorem claim_C1_offset_wrong_chunk_frame :
    (compute_mapping_cuda [pM5] m5Verts m5Faces 1000 3).map (·.faceIndex) = [3] ∧
    (compute_mapping_cuda [pM5] m5Verts m5Faces 1000 3).map (·.offScaled) = [q (-19) 4] ∧
    spec_scaled_offset m5Verts m5Faces pM5 3 = q 1 2 ∧
    q (-19) 4 ≠ q 1 2 ∧
    (compute_face_data m5Verts m5Faces).map (·.crossSq) = [1, 1, 1, 1, 1] :=
  ⟨by decide, by decide, by decide, by decide, by decide⟩

set_option maxHeartbeats 4000000 in
/-- C8 (code bug, consequence of line 522): changing only the face-chunk size
of the exhaustive strategy changes the returned values.  On the same mesh and
point, `face_batch_size = 5` (one aligned chunk) returns offset `1/2`, while
`face_batch_size = 3` (misaligned trailing chunk) returns `-19/4` — same
selected face, different normalOffset, so the output is not
chunk-size-invariant. -/
theorem claim_C8_chunk_size_changes_output :
    (compute_mapping_cuda [pM5] m5Verts m5Faces 1000 5).map (·.faceIndex) = [3] ∧
    (compute_mapping_cuda [pM5] m5Verts m5Faces 1000 3).map (·.faceIndex) = [3] ∧
    (compute_mapping_cuda [pM5] m5Verts m5Faces 1000 5).map (·.offScaled) = [q 1 2] ∧
    (compute_mapping_cuda [pM5] m5Verts m5Faces 1000 3).map (·.offScaled) = [q (-19) 4] ∧
    q 1 2 ≠ q (-19) 4 :=
  ⟨by decide, by decide, by decide, by decide, by decide⟩

set_option maxHeartbeats 4000000 in
/-- C3 counterexample: on `tieVerts`/`tieFaces` (two coplanar triangles, both
at exact narrow-phase distance 1 from `pTie`, no centroid tie) the two
strategies select *different* faces — the CPU strategy visits the
nearer-centroid face 1 first and the strict `<` update keeps it across the
distance tie, while the exhaustive strategy's `argmin` resolves the same tie
to the lowest face index 0 — and the barycentric coordinates disagree in the
first component by `1/3`, far beyond the claimed `1e-4`.  Here
`k = 2 = F`, as the claim demands. -/
theorem claim_C3_counterexample :
    compute_mapping_cpu [pTie] tieVerts tieFaces 2 =
      .ok [⟨1, ⟨q 1 3, q 1 3, q 1 3⟩, q 1 9, some 1⟩] ∧
    compute_mapping_cuda_default [pTie] tieVerts tieFaces =
      [⟨0, ⟨q 2 3, q 1 6, q 1 6⟩, q 1 36, some 1⟩] ∧
    tieFaces.length = 2 ∧
    (1 : Nat) ≠ 0 ∧
    ¬(qAbs (qSub (q 1 3) (q 2 3)) ≤ q 1 10000) :=
  ⟨by decide, by decide, by decide, by decide, by decide⟩

/-- C5 decoy mesh: face 0 is a large triangle in the `z = 0` plane whose
interior contains `pC5 = (5, -5, 0)`; faces 1-8 are eight tiny triangles in
the `z = 1` plane clustered near `(5, -4, 1)`, whose centroids are all nearer
to `pC5` than face 0's centroid, so the default `k_nearest = 8` candidate list
misses face 0 entirely. -/
def c5Verts : List Vec3 :=
  [⟨-10,-10,0⟩, ⟨10,-10,0⟩, ⟨0,20,0⟩,
   ⟨5, -4, 1⟩, ⟨q 51 10, -4, 1⟩, ⟨5, q (-39) 10, 1⟩,
   ⟨5, q (-39) 10, 1⟩, ⟨q 51 10, q (-39) 10, 1⟩, ⟨5, q (-29) 10, 1⟩,
   ⟨5, q (-38) 10, 1⟩, ⟨q 51 10, q (-38) 10, 1⟩, ⟨5, q (-28) 10, 1⟩,
   ⟨5, q (-37) 10, 1⟩, ⟨q 51 10, q (-37) 10, 1⟩, ⟨5, q (-27) 10, 1⟩,
   ⟨5, q (-36) 10, 1⟩, ⟨q 51 10, q (-36) 10, 1⟩, ⟨5, q (-26) 10, 1⟩,
   ⟨5, q (-35) 10, 1⟩, ⟨q 51 10, q (-35) 10, 1⟩, ⟨5, q (-25) 10, 1⟩,
   ⟨5, q (-34) 10, 1⟩, ⟨q 51 10, q (-34) 10, 1⟩, ⟨5, q (-24) 10, 1⟩,
   ⟨5, q (-33) 10, 1⟩, ⟨q 51 10, q (-33) 10, 1⟩, ⟨5, q (-23) 10, 1⟩]

def c5Faces : List Face :=
  [⟨0,1,2⟩, ⟨3,4,5⟩, ⟨6,7,8⟩, ⟨9,10,11⟩, ⟨12,13,14⟩, ⟨15,16,17⟩,
   ⟨18,19,20⟩, ⟨21,22,23⟩, ⟨24,25,26⟩]

def pC5 : Vec3 := ⟨5, -5, 0⟩

set_option maxHeartbeats 8000000 in
/-- C5 counterexample: `pC5` lies exactly in the interior of face 0 (second
conjunct: it is the affine combination of face 0's vertices with strictly
positive weights `(1/6, 2/3, 1/6)`), yet the CPU strategy with its default
`k_nearest = 8` on this 9-face mesh returns face 1 at squared distance 2 —
not `≈ 0` — and reconstruction against the same undeformed mesh returns
`(5, -4, 0)`, a full unit away from `pC5` in `y`, violating the claimed
`1e-4`. -/
theorem claim_C5_counterexample :
    compute_mapping_cpu [pC5] c5Verts c5Faces 8 =
      .ok [⟨1, ⟨1,0,0⟩, -100, some 2⟩] ∧
    pC5 = vadd (vadd (vsmul (q 1 6) (getV c5Verts 0)) (vsmul (q 2 3) (getV c5Verts 1)))
      (vsmul (q 1 6) (getV c5Verts 2)) ∧
    c5Faces.getD 0 ⟨0, 0, 0⟩ = ⟨0, 1, 2⟩ ∧
    reconstruct_positions c5Verts c5Faces [⟨1, ⟨1,0,0⟩, -100, some 2⟩] = [⟨5,-4,0⟩] ∧
    ¬(qAbs (qSub (q (-4) 1) (q (-5) 1)) ≤ q 1 10000) ∧
    ¬(qAbs (qSub (q 2 1) 0) ≤ q 1 10000) :=
  ⟨by decide, by decide, by decide, by decide, by decide, by decide⟩

/-! ## Claim C5 (corrected): a reported zero distance round-trips exactly -/

theorem qDiv_zero_left (b : ℚ) : qDiv 0 b = 0 := by
  rw [qDiv_eq]
  exact zero_div b

theorem vadd_vsmul_zero (a b : Vec3) : vadd a (vsmul 0 b) = a := by
  rw [vsmul_eq, vadd_eq]
  cases a
  simp

theorem getD_map_lt {α β : Type} (f : α → β) (l : List α) (i : Nat) (d : α) (d2 : β)
    (hi : i < l.length) : (l.map f).getD i d2 = f (l.getD i d) := by
  rw [List.getD_eq_getElem _ _ (by rw [List.length_map]; exact hi),
    List.getD_eq_getElem _ _ hi, List.getElem_map]

theorem compute_face_data_getD (vertices : List Vec3) (faces : List Face) (i : Nat)
    (hi : i < faces.length) :
    (compute_face_data vertices faces).getD i fdZero =
      face_data_of vertices (faces.getD i ⟨0, 0, 0⟩) := by
  rw [compute_face_data]
  exact getD_map_lt _ faces i ⟨0, 0, 0⟩ fdZero hi

/-- The narrow-phase run the candidate scan performs at face index `fi`. -/
def narrow_at (fd : List FaceData) (p : Vec3) (fi : Nat) : NarrowRes :=
  point_to_triangle_distance_and_projection p (fd.getD fi fdZero).v0 (fd.getD fi fdZero).v1
    (fd.getD fi fdZero).v2

/-- A best state the candidate scan can actually be in: the initial state, or
the state recorded after a narrow-phase run at some in-range face. -/
def Sourced (fd : List FaceData) (p : Vec3) (st : BestState) : Prop :=
  st = best_init ∨ ∃ fi, fi < fd.length ∧
    st = ⟨some (narrow_at fd p fi).distSq, fi, (narrow_at fd p fi).bary⟩

theorem scan_sourced (fd : List FaceData) (p : Vec3) (cands : List Nat) (st : BestState)
    (hst : Sourced fd p st) : Sourced fd p (scan_candidates fd p cands st) := by
  induction cands generalizing st with
  | nil => exact hst
  | cons fi rest ih =>
    rw [scan_candidates]
    by_cases hle : fd.length ≤ fi
    · rw [if_pos hle]
      exact ih st hst
    · rw [if_neg hle]
      dsimp only
      by_cases hlt : ltInf (point_to_triangle_distance_and_projection p (fd.getD fi fdZero).v0
          (fd.getD fi fdZero).v1 (fd.getD fi fdZero).v2).distSq st.dist = true
      · rw [if_pos hlt]
        exact ih _ (Or.inr ⟨fi, by omega, rfl⟩)
      · rw [if_neg hlt]
        exact ih st hst

/-- At squared distance 0 the narrow phase reports exact interior data: the
bary row sums to 1, its vertex combination reproduces the query point, and the
point lies in the face plane (its offset numerator vanishes). -/
theorem zero_dist_data (p w0 w1 w2 : Vec3)
    (hdz : (point_to_triangle_distance_and_projection p w0 w1 w2).distSq = 0) :
    (point_to_triangle_distance_and_projection p w0 w1 w2).bary.u +
      (point_to_triangle_distance_and_projection p w0 w1 w2).bary.v +
      (point_to_triangle_distance_and_projection p w0 w1 w2).bary.w = 1 ∧
    vadd (vadd (vsmul (point_to_triangle_distance_and_projection p w0 w1 w2).bary.u w0)
      (vsmul (point_to_triangle_distance_and_projection p w0 w1 w2).bary.v w1))
      (vsmul (point_to_triangle_distance_and_projection p w0 w1 w2).bary.w w2) = p ∧
    dot (vsub p w0) (cross (vsub w1 w0) (vsub w2 w0)) = 0 := by
  have hg := bary_partition p w0 w1 w2
  have hcl := closest_eq_of_distSq_zero p w0 w1 w2 hdz
  have hcombo : vadd (vadd
      (vsmul (point_to_triangle_distance_and_projection p w0 w1 w2).bary.u w0)
      (vsmul (point_to_triangle_distance_and_projection p w0 w1 w2).bary.v w1))
      (vsmul (point_to_triangle_distance_and_projection p w0 w1 w2).bary.w w2) = p := by
    rw [ptTri_bary_renormed]
    exact hcl
  refine ⟨hg.1, hcombo, ?_⟩
  have horth := dot_cross_combo_zero w0 w1 w2
    (point_to_triangle_distance_and_projection p w0 w1 w2).bary.u
    (point_to_triangle_distance_and_projection p w0 w1 w2).bary.v
    (point_to_triangle_distance_and_projection p w0 w1 w2).bary.w hg.1
  rw [hcombo] at horth
  exact horth

/-- Reconstruction is exact for any record whose bary row sums to 1,
reproduces the point over the record's face, and whose offset is 0. -/
theorem reconstruct_one_exact (vertices : List Vec3) (faces : List Face) (r : MappingRecord)
    (p : Vec3)
    (hcombo : vadd (vadd (vsmul r.bary.u (getV vertices (faces.getD r.faceIndex ⟨0,0,0⟩).i0))
        (vsmul r.bary.v (getV vertices (faces.getD r.faceIndex ⟨0,0,0⟩).i1)))
        (vsmul r.bary.w (getV vertices (faces.getD r.faceIndex ⟨0,0,0⟩).i2)) = p)
    (hoff : r.offScaled = 0) :
    reconstruct_one vertices faces r = p := by
  rw [reconstruct_one, hoff, hcombo]
  exact vadd_vsmul_zero p _

/-- Any sourced best state with reported distance 0 reconstructs its query
point exactly. -/
theorem scan_zero_roundtrip (vertices : List Vec3) (faces : List Face) (p : Vec3)
    (best : BestState)
    (hsrc : Sourced (compute_face_data vertices faces) p best)
    (hd : best.dist = some 0) :
    reconstruct_one vertices faces
      ⟨best.face, best.bary,
        scaled_offset p ((compute_face_data vertices faces).getD best.face fdZero),
        best.dist⟩ = p := by
  rcases hsrc with hinit | ⟨fi, hfi, hst⟩
  · rw [hinit] at hd
    simp [best_init] at hd
  · subst hst
    dsimp only at hd ⊢
    have hdz : (narrow_at (compute_face_data vertices faces) p fi).distSq = 0 :=
      Option.some.inj hd
    have hfi2 : fi < faces.length := by
      rw [compute_face_data_length] at hfi
      exact hfi
    have hfd : (compute_face_data vertices faces).getD fi fdZero =
        face_data_of vertices (faces.getD fi ⟨0, 0, 0⟩) :=
      compute_face_data_getD vertices faces fi hfi2
    have hna : narrow_at (compute_face_data vertices faces) p fi =
        point_to_triangle_distance_and_projection p
          (getV vertices (faces.getD fi ⟨0, 0, 0⟩).i0)
          (getV vertices (faces.getD fi ⟨0, 0, 0⟩).i1)
          (getV vertices (faces.getD fi ⟨0, 0, 0⟩).i2) := by
      rw [narrow_at, hfd]
      simp only [face_data_of]
    rw [hna] at hdz
    have hdata := zero_dist_data p
      (getV vertices (faces.getD fi ⟨0, 0, 0⟩).i0)
      (getV vertices (faces.getD fi ⟨0, 0, 0⟩).i1)
      (getV vertices (faces.getD fi ⟨0, 0, 0⟩).i2) hdz
    apply reconstruct_one_exact
    · dsimp only
      rw [hna]
      exact hdata.2.1
    · dsimp only
      rw [hfd]
      simp only [scaled_offset, face_data_of]
      rw [hdata.2.2, qDiv_zero_left]

theorem cpu_record_eta (fd : List FaceData) (cent : List Vec3) (k : Nat) (p : Vec3) :
    cpu_record fd cent k p =
      ⟨(scan_candidates fd p (kd_query cent p k) best_init).face,
       (scan_candidates fd p (kd_query cent p k) best_init).bary,
       scaled_offset p
         (fd.getD (scan_candidates fd p (kd_query cent p k) best_init).face fdZero),
       (scan_candidates fd p (kd_query cent p k) best_init).dist⟩ := by
  rw [cpu_record]

/-- Per-point form: a CPU record with reported distance 0 reconstructs its
query point exactly against the same mesh. -/
theorem cpu_record_zero_roundtrip (vertices : List Vec3) (faces : List Face) (k : Nat)
    (p : Vec3)
    (h0 : (cpu_record (compute_face_data vertices faces)
      ((compute_face_data vertices faces).map (·.centroid)) k p).distSq = some 0) :
    reconstruct_one vertices faces
      (cpu_record (compute_face_data vertices faces)
        ((compute_face_data vertices faces).map (·.centroid)) k p) = p := by
  rw [cpu_record_eta] at h0 ⊢
  dsimp only at h0
  exact scan_zero_roundtrip vertices faces p _
    (scan_sourced _ _ _ _ (Or.inl rfl)) h0

set_option maxHeartbeats 8000000 in
/-- C5 amended: the round-trip identity holds exactly when the mapping
actually reports distance 0, but a point in a face interior is only
guaranteed that report when the candidate list covers its face.  First part
(general): for any CPU mapping run over a nonempty mesh, every record whose
distance is 0 reconstructs its query point *exactly* against the same
undeformed mesh.  Second part (the concrete scenario of `claim_C5_...`
counterexample data, now with `k_nearest = 9 = F` so the candidate list
covers the containing face): the interior point `pC5` gets distance 0,
exact interior bary `(1/6, 2/3, 1/6)`, offset 0, and reconstructs to `pC5`
exactly. -/
theorem claim_C5_zero_distance_roundtrip :
    (∀ (points vertices : List Vec3) (faces : List Face) (k : Nat)
      (recs : List MappingRecord) (i : Nat),
      compute_mapping_cpu points vertices faces k = .ok recs →
      0 < faces.length →
      i < points.length →
      (recs.getD i ⟨0, ⟨0, 0, 0⟩, 0, none⟩).distSq = some 0 →
      (reconstruct_positions vertices faces recs).getD i v3zero = points.getD i v3zero) ∧
    (compute_mapping_cpu [pC5] c5Verts c5Faces 9 =
        .ok [⟨0, ⟨q 1 6, q 2 3, q 1 6⟩, 0, some 0⟩] ∧
      reconstruct_positions c5Verts c5Faces [⟨0, ⟨q 1 6, q 2 3, q 1 6⟩, 0, some 0⟩] = [pC5]) := by
  constructor
  · intro points vertices faces k recs i hok hF hi hd
    rw [compute_mapping_cpu_ok points vertices faces k hF] at hok
    injection hok with hrecs
    subst hrecs
    rw [getD_map_lt _ points i v3zero _ hi] at hd
    rw [reconstruct_positions,
      getD_map_lt _ _ i (⟨0, ⟨0, 0, 0⟩, 0, none⟩ : MappingRecord) v3zero
        (by rw [List.length_map]; exact hi),
      getD_map_lt _ points i v3zero _ hi]
    exact cpu_record_zero_roundtrip vertices faces k (points.getD i v3zero) hd
  · exact ⟨by decide, by decide⟩

set_option maxHeartbeats 8000000 in
/-- Witness for `claim_C5_zero_distance_roundtrip`: the general part applied
to the concrete zero-distance run of its second part. -/
theorem claim_C5_witness :
    (reconstruct_positions c5Verts c5Faces
      [⟨0, ⟨q 1 6, q 2 3, q 1 6⟩, 0, some 0⟩]).getD 0 v3zero = [pC5].getD 0 v3zero :=
  claim_C5_zero_distance_roundtrip.1 [pC5] c5Verts c5Faces 9
    [⟨0, ⟨q 1 6, q 2 3, q 1 6⟩, 0, some 0⟩] 0 (by decide) (by decide) (by decide) (by decide)

/-! ## Claim C3 (corrected): agreement under a unique narrow-phase minimum -/

theorem narrow_at_def (fd : List FaceData) (p : Vec3) (fi : Nat) :
    narrow_at fd p fi = point_to_triangle_distance_and_projection p (fd.getD fi fdZero).v0
      (fd.getD fi fdZero).v1 (fd.getD fi fdZero).v2 := rfl

/-- Face `i` is the strict narrow-phase minimizer for point `p`: it beats
every other face's distance strictly (no distance ties at the optimum). -/
def UniqueMin (fd : List FaceData) (p : Vec3) (i : Nat) : Prop :=
  i < fd.length ∧ ∀ j, j < fd.length → j ≠ i →
    (narrow_at fd p i).distSq < (narrow_at fd p j).distSq

instance (fd : List FaceData) (p : Vec3) (i : Nat) : Decidable (UniqueMin fd p i) :=
  inferInstanceAs (Decidable (i < fd.length ∧ ∀ j, j < fd.length → j ≠ i →
    (narrow_at fd p i).distSq < (narrow_at fd p j).distSq))

/-- Once the scan state holds the unique minimizer, no candidate displaces
it. -/
theorem scan_stay_min (fd : List FaceData) (p : Vec3) (i : Nat)
    (hmin : UniqueMin fd p i) (cands : List Nat) :
    scan_candidates fd p cands ⟨some (narrow_at fd p i).distSq, i, (narrow_at fd p i).bary⟩ =
      ⟨some (narrow_at fd p i).distSq, i, (narrow_at fd p i).bary⟩ := by
  induction cands with
  | nil => rfl
  | cons c rest ih =>
    rw [scan_candidates]
    by_cases hle : fd.length ≤ c
    · rw [if_pos hle]
      exact ih
    · rw [if_neg hle]
      dsimp only
      rw [← narrow_at_def]
      by_cases hci : c = i
      · subst hci
        rw [ltInf_some, if_neg (by simp)]
        exact ih
      · rw [ltInf_some,
          if_neg (by simp only [decide_eq_true_eq, not_lt]; exact le_of_lt (hmin.2 c (by omega) hci))]
        exact ih

/-- From any reachable state, a candidate list containing the unique
minimizer ends the scan exactly at the minimizer's state. -/
theorem scan_reach_min (fd : List FaceData) (p : Vec3) (i : Nat)
    (hmin : UniqueMin fd p i) (cands : List Nat) (hc : i ∈ cands) (st : BestState)
    (hst : Sourced fd p st) :
    scan_candidates fd p cands st =
      ⟨some (narrow_at fd p i).distSq, i, (narrow_at fd p i).bary⟩ := by
  induction cands generalizing st with
  | nil => cases hc
  | cons c rest ih =>
    rw [scan_candidates]
    by_cases hle : fd.length ≤ c
    · rw [if_pos hle]
      rcases List.mem_cons.1 hc with rfl | hmem
      · exact absurd hmin.1 (by omega)
      · exact ih hmem st hst
    · rw [if_neg hle]
      dsimp only
      rw [← narrow_at_def]
      by_cases hlt : ltInf (narrow_at fd p c).distSq st.dist = true
      · rw [if_pos hlt]
        by_cases hci : c = i
        · subst hci
          exact scan_stay_min fd p c hmin rest
        · rcases List.mem_cons.1 hc with rfl | hmem
          · exact absurd rfl hci
          · exact ih hmem _ (Or.inr ⟨c, by omega, rfl⟩)
      · rw [if_neg hlt]
        rcases List.mem_cons.1 hc with heq | hmem
        · subst heq
          rcases hst with hinit | ⟨j, hj, hstj⟩
          · rw [hinit] at hlt
            exact absurd (by rw [show best_init.dist = none from rfl, ltInf_none]) hlt
          · by_cases hji : j = i
            · subst hji
              rw [hstj]
              exact scan_stay_min fd p j hmin rest
            · exfalso
              rw [hstj] at hlt
              dsimp only at hlt
              rw [ltInf_some] at hlt
              exact hlt (by simp only [decide_eq_true_eq]; exact hmin.2 j hj hji)
        · exact ih hmem st hst

theorem insertBy_mem {α : Type} (le : α → α → Bool) (x : α) (l : List α) (y : α) :
    y ∈ insertBy le x l ↔ y = x ∨ y ∈ l := by
  induction l with
  | nil => simp [insertBy]
  | cons z zs ih =>
    rw [insertBy]
    split
    · simp
    · rw [List.mem_cons, ih, List.mem_cons]
      tauto

theorem sortBy_mem {α : Type} (le : α → α → Bool) (l : List α) (y : α) :
    y ∈ sortBy le l ↔ y ∈ l := by
  induction l with
  | nil => simp [sortBy]
  | cons z zs ih =>
    rw [sortBy, insertBy_mem, ih, List.mem_cons]

theorem insertBy_length {α : Type} (le : α → α → Bool) (x : α) (l : List α) :
    (insertBy le x l).length = l.length + 1 := by
  induction l with
  | nil => rfl
  | cons z zs ih =>
    rw [insertBy]
    split
    · rfl
    · rw [List.length_cons, ih, List.length_cons]

theorem sortBy_length {α : Type} (le : α → α → Bool) (l : List α) :
    (sortBy le l).length = l.length := by
  induction l with
  | nil => rfl
  | cons z zs ih =>
    rw [sortBy, insertBy_length, ih, List.length_cons]

/-- With `k = len(centroids)`, the KDTree returns every index: the scored
list is a permutation of the index range and nothing is truncated. -/
theorem kd_query_mem_of_all (cent : List Vec3) (p : Vec3) (i : Nat) (hi : i < cent.length) :
    i ∈ kd_query cent p cent.length := by
  rw [kd_query]
  apply List.mem_append_left
  rw [List.take_of_length_le (by
    rw [List.length_map, sortBy_length, List.length_map, List.length_range])]
  rw [List.mem_map]
  refine ⟨(i, normSq (vsub p (cent.getD i v3zero))), ?_, rfl⟩
  rw [sortBy_mem, List.mem_map]
  exact ⟨i, List.mem_range.2 hi, rfl⟩

/-- The CPU record under a unique minimizer covered by the candidate list. -/
theorem cpu_record_unique_min (fd : List FaceData) (cent : List Vec3) (k : Nat) (p : Vec3)
    (i : Nat) (hmin : UniqueMin fd p i) (hcov : i ∈ kd_query cent p k) :
    cpu_record fd cent k p =
      ⟨i, (narrow_at fd p i).bary, scaled_offset p (fd.getD i fdZero),
        some (narrow_at fd p i).distSq⟩ := by
  rw [cpu_record_eta, scan_reach_min fd p i hmin _ hcov best_init (Or.inl rfl)]

/-- A per-point CUDA state the chunk fold can actually be in (offset field
unconstrained): still at `inf`, or holding some face's narrow-phase row. -/
def CudaSourced (fd : List FaceData) (p : Vec3) (st : CudaState) : Prop :=
  st.dist = none ∨ ∃ j, j < fd.length ∧ st.face = j ∧
    st.bary = (narrow_at fd p j).bary ∧ st.dist = some (narrow_at fd p j).distSq

/-- The CUDA state holds the unique minimizer's row (offset unconstrained). -/
def CudaAtMin (fd : List FaceData) (p : Vec3) (i : Nat) (st : CudaState) : Prop :=
  st.face = i ∧ st.bary = (narrow_at fd p i).bary ∧
    st.dist = some (narrow_at fd p i).distSq

theorem chunk_ds_getD (p : Vec3) (fd : List FaceData) (s : Nat) (ch : List FaceData)
    (hch : ∀ j, j < ch.length → ch.getD j fdZero = fd.getD (s + j) fdZero)
    (j : Nat) (hj : j < ch.length) :
    ((ch.map (fun f => point_to_triangle_distance_and_projection p f.v0 f.v1 f.v2)).map
      (·.distSq)).getD j 0 = (narrow_at fd p (s + j)).distSq := by
  rw [getD_map_lt _ _ j nrZero 0 (by rw [List.length_map]; exact hj),
    getD_map_lt _ _ j fdZero nrZero hj, hch j hj]
  rfl

theorem chunk_rs_getD_bary (p : Vec3) (fd : List FaceData) (s : Nat) (ch : List FaceData)
    (hch : ∀ j, j < ch.length → ch.getD j fdZero = fd.getD (s + j) fdZero)
    (j : Nat) (hj : j < ch.length) :
    ((ch.map (fun f => point_to_triangle_distance_and_projection p f.v0 f.v1 f.v2)).getD
      j nrZero).bary = (narrow_at fd p (s + j)).bary := by
  rw [getD_map_lt _ _ j fdZero nrZero hj, hch j hj]
  rfl

/-- In the chunk containing the unique minimizer, the chunk argmin is exactly
the minimizer's local index and distance. -/
theorem chunk_argmin_min (p : Vec3) (fd : List FaceData) (i : Nat)
    (hmin : UniqueMin fd p i) (s : Nat) (ch : List FaceData)
    (hlen : s + ch.length ≤ fd.length)
    (hch : ∀ j, j < ch.length → ch.getD j fdZero = fd.getD (s + j) fdZero)
    (j : Nat) (hj : j < ch.length) (hij : s + j = i) :
    argminL ((ch.map (fun f => point_to_triangle_distance_and_projection p f.v0 f.v1 f.v2)).map
      (·.distSq)) = (j, (narrow_at fd p i).distSq) := by
  have hlen2 : j < (((ch.map
      (fun f => point_to_triangle_distance_and_projection p f.v0 f.v1 f.v2)).map
      (·.distSq))).length := by
    rw [List.length_map, List.length_map]
    exact hj
  have hminloc : ∀ j2, j2 < (((ch.map
      (fun f => point_to_triangle_distance_and_projection p f.v0 f.v1 f.v2)).map
      (·.distSq))).length → j2 ≠ j →
      ((ch.map (fun f => point_to_triangle_distance_and_projection p f.v0 f.v1 f.v2)).map
        (·.distSq)).getD j 0 <
      ((ch.map (fun f => point_to_triangle_distance_and_projection p f.v0 f.v1 f.v2)).map
        (·.distSq)).getD j2 0 := by
    intro j2 hj2 hne2
    rw [List.length_map, List.length_map] at hj2
    rw [chunk_ds_getD p fd s ch hch j hj, chunk_ds_getD p fd s ch hch j2 hj2, hij]
    exact hmin.2 (s + j2) (by omega) (fun hcon => hne2 (by omega))
  have h := argminL_unique _ j hlen2 hminloc
  rw [chunk_ds_getD p fd s ch hch j hj, hij] at h
  exact h

/-- One chunk update keeps the state reachable. -/
theorem chunk_update_sourced (p : Vec3) (fd : List FaceData) (s : Nat) (ch : List FaceData)
    (hlen : s + ch.length ≤ fd.length)
    (hch : ∀ j, j < ch.length → ch.getD j fdZero = fd.getD (s + j) fdZero)
    (st : CudaState) (hst : CudaSourced fd p st) :
    CudaSourced fd p (cuda_chunk_update p s ch st) := by
  cases ch with
  | nil =>
    rw [cuda_chunk_update]
    exact hst
  | cons f0 tail =>
    rw [cuda_chunk_update_cons]
    split
    · have hlt := argminL_lt (((f0 :: tail).map
        (fun f => point_to_triangle_distance_and_projection p f.v0 f.v1 f.v2)).map
        (·.distSq)) (by simp)
      rw [List.length_map, List.length_map] at hlt
      right
      refine ⟨s + (argminL (((f0 :: tail).map
        (fun f => point_to_triangle_distance_and_projection p f.v0 f.v1 f.v2)).map
        (·.distSq))).1, ?_, rfl, ?_, ?_⟩
      · simp only [List.length_cons] at hlt hlen ⊢
        omega
      · dsimp only
        exact chunk_rs_getD_bary p fd s (f0 :: tail) hch _ hlt
      · dsimp only
        rw [← chunk_ds_getD p fd s (f0 :: tail) hch _ hlt,
          argminL_getD _ (by simp)]
    · exact hst

/-- Once at the unique minimizer, no chunk displaces the state. -/
theorem chunk_update_stay (p : Vec3) (fd : List FaceData) (i : Nat)
    (hmin : UniqueMin fd p i) (s : Nat) (ch : List FaceData)
    (hlen : s + ch.length ≤ fd.length)
    (hch : ∀ j, j < ch.length → ch.getD j fdZero = fd.getD (s + j) fdZero)
    (st : CudaState) (hst : CudaAtMin fd p i st) :
    CudaAtMin fd p i (cuda_chunk_update p s ch st) := by
  cases ch with
  | nil =>
    rw [cuda_chunk_update]
    exact hst
  | cons f0 tail =>
    rw [cuda_chunk_update_cons]
    split
    · next hfire =>
      exfalso
      have hlt := argminL_lt (((f0 :: tail).map
        (fun f => point_to_triangle_distance_and_projection p f.v0 f.v1 f.v2)).map
        (·.distSq)) (by simp)
      rw [List.length_map, List.length_map] at hlt
      have hval : (argminL (((f0 :: tail).map
          (fun f => point_to_triangle_distance_and_projection p f.v0 f.v1 f.v2)).map
          (·.distSq))).2 = (narrow_at fd p (s + (argminL (((f0 :: tail).map
          (fun f => point_to_triangle_distance_and_projection p f.v0 f.v1 f.v2)).map
          (·.distSq))).1)).distSq := by
        rw [← chunk_ds_getD p fd s (f0 :: tail) hch _ hlt, argminL_getD _ (by simp)]
      rw [hst.2.2, ltInf_some, hval, decide_eq_true_eq] at hfire
      by_cases hii : s + (argminL (((f0 :: tail).map
          (fun f => point_to_triangle_distance_and_projection p f.v0 f.v1 f.v2)).map
          (·.distSq))).1 = i
      · rw [hii] at hfire
        exact absurd hfire (lt_irrefl _)
      · have := hmin.2 _ (by simp only [List.length_cons] at hlt hlen; omega) hii
        exact absurd (lt_trans hfire this) (lt_irrefl _)
    · exact hst

set_option maxHeartbeats 1600000 in
/-- The chunk containing the unique minimizer moves any reachable state to
the minimizer. -/
theorem chunk_update_reach (p : Vec3) (fd : List FaceData) (i : Nat)
    (hmin : UniqueMin fd p i) (s : Nat) (ch : List FaceData)
    (hlen : s + ch.length ≤ fd.length)
    (hch : ∀ j, j < ch.length → ch.getD j fdZero = fd.getD (s + j) fdZero)
    (j : Nat) (hj : j < ch.length) (hij : s + j = i)
    (st : CudaState) (hst : CudaSourced fd p st) :
    CudaAtMin fd p i (cuda_chunk_update p s ch st) := by
  cases ch with
  | nil => exact absurd hj (by simp)
  | cons f0 tail =>
    have ham := chunk_argmin_min p fd i hmin s (f0 :: tail) hlen hch j hj hij
    rw [cuda_chunk_update_cons, ham]
    split
    · exact ⟨by dsimp only; omega,
        by dsimp only
           rw [chunk_rs_getD_bary p fd s (f0 :: tail) hch j hj, hij],
        rfl⟩
    · next hfire =>
      rcases hst with hnone | ⟨j2, hj2, hface, hbary, hdist⟩
      · rw [hnone] at hfire
        exact absurd (by rw [ltInf_none]) hfire
      · by_cases hji : j2 = i
        · subst hji
          exact ⟨hface, hbary, hdist⟩
        · exfalso
          rw [hdist, ltInf_some, decide_eq_true_eq] at hfire
          dsimp only at hfire
          exact hfire (hmin.2 j2 hj2 hji)

theorem cuda_fold_stay_min (p : Vec3) (fd : List FaceData) (i : Nat)
    (hmin : UniqueMin fd p i) (chunks : List (Nat × List FaceData))
    (hprops : ∀ sc ∈ chunks, sc.1 + sc.2.length ≤ fd.length ∧
      ∀ j, j < sc.2.length → sc.2.getD j fdZero = fd.getD (sc.1 + j) fdZero)
    (st : CudaState) (hst : CudaAtMin fd p i st) :
    CudaAtMin fd p i (chunks.foldl (fun st sc => cuda_chunk_update p sc.1 sc.2 st) st) := by
  induction chunks generalizing st with
  | nil => exact hst
  | cons sc rest ih =>
    rw [List.foldl_cons]
    have hp := hprops sc (List.mem_cons_self _ _)
    exact ih (fun x hx => hprops x (List.mem_cons_of_mem _ hx)) _
      (chunk_update_stay p fd i hmin sc.1 sc.2 hp.1 hp.2 st hst)

theorem cuda_fold_reach_min (p : Vec3) (fd : List FaceData) (i : Nat)
    (hmin : UniqueMin fd p i) (chunks : List (Nat × List FaceData))
    (hprops : ∀ sc ∈ chunks, sc.1 + sc.2.length ≤ fd.length ∧
      ∀ j, j < sc.2.length → sc.2.getD j fdZero = fd.getD (sc.1 + j) fdZero)
    (hcov : ∃ sc ∈ chunks, ∃ j, j < sc.2.length ∧ sc.1 + j = i)
    (st : CudaState) (hst : CudaSourced fd p st) :
    CudaAtMin fd p i (chunks.foldl (fun st sc => cuda_chunk_update p sc.1 sc.2 st) st) := by
  induction chunks generalizing st with
  | nil =>
    obtain ⟨sc, hsc, _⟩ := hcov
    cases hsc
  | cons sc rest ih =>
    rw [List.foldl_cons]
    have hp := hprops sc (List.mem_cons_self _ _)
    obtain ⟨sc', hsc', j, hjlen, hji⟩ := hcov
    rcases List.mem_cons.1 hsc' with rfl | hmem
    · exact cuda_fold_stay_min p fd i hmin rest
        (fun x hx => hprops x (List.mem_cons_of_mem _ hx)) _
        (chunk_update_reach p fd i hmin sc'.1 sc'.2 hp.1 hp.2 j hjlen hji st hst)
    · exact ih (fun x hx => hprops x (List.mem_cons_of_mem _ hx))
        ⟨sc', hmem, j, hjlen, hji⟩ _
        (chunk_update_sourced p fd sc.1 sc.2 hp.1 hp.2 st hst)

/-- The exhaustive per-point fold lands exactly on the unique minimizer. -/
theorem cuda_per_point_unique_min (fd : List FaceData) (fbs : Nat) (hfbs : 0 < fbs)
    (p : Vec3) (i : Nat) (hmin : UniqueMin fd p i) :
    CudaAtMin fd p i (cuda_per_point (cuda_chunks fd fbs) p) := by
  rw [cuda_per_point]
  apply cuda_fold_reach_min p fd i hmin _ ?_ ?_ cuda_init (Or.inl rfl)
  · intro sc hsc
    rcases sc with ⟨s, ch⟩
    have h := cuda_chunks_mem fd fbs hfbs s ch hsc
    exact ⟨h.2.2.1, h.2.2.2⟩
  · obtain ⟨s, ch, hmem, j, hjlen, hji⟩ := cuda_chunks_cover fd fbs hfbs i hmin.1
    exact ⟨(s, ch), hmem, j, hjlen, hji⟩

/-- C3 amended: the two strategies are only guaranteed to agree when each
point's narrow-phase minimum is attained at a *unique* face (no distance
ties — `claim_C3_...` counterexample data shows a tie flips the selection).
Under that hypothesis, with `k = F` for the index strategy, both strategies
select exactly the minimizing face for every point and produce *identical*
barycentric rows (in particular equal within any tolerance). -/
theorem claim_C3_agreement :
    ∀ (points vertices : List Vec3) (faces : List Face) (recs : List MappingRecord),
      0 < faces.length →
      (∀ p ∈ points, ∃ i, UniqueMin (compute_face_data vertices faces) p i) →
      compute_mapping_cpu points vertices faces faces.length = .ok recs →
      recs.map (·.faceIndex) =
        (compute_mapping_cuda_default points vertices faces).map (·.faceIndex) ∧
      recs.map (·.bary) =
        (compute_mapping_cuda_default points vertices faces).map (·.bary) := by
  intro points vertices faces recs hF huniq hok
  rw [compute_mapping_cpu_ok points vertices faces faces.length hF] at hok
  injection hok with hrecs
  subst hrecs
  rw [compute_mapping_cuda_default,
    compute_mapping_cuda_eq_map points vertices faces 1000 50000 (by decide)]
  rw [List.map_map, List.map_map, List.map_map, List.map_map]
  have hcl : ((compute_face_data vertices faces).map (·.centroid)).length = faces.length := by
    rw [List.length_map, compute_face_data_length]
  constructor
  · apply List.map_congr_left
    intro p hp
    obtain ⟨i, hmin⟩ := huniq p hp
    have hcov : i ∈ kd_query ((compute_face_data vertices faces).map (·.centroid)) p
        faces.length := by
      rw [← hcl]
      exact kd_query_mem_of_all _ p i (by rw [hcl, ← compute_face_data_length vertices faces]
                                          exact hmin.1)
    simp only [Function.comp_apply]
    rw [(cuda_record_proj _ p).1, cpu_record_unique_min _ _ faces.length p i hmin hcov]
    exact ((cuda_per_point_unique_min _ 50000 (by decide) p i hmin).1).symm
  · apply List.map_congr_left
    intro p hp
    obtain ⟨i, hmin⟩ := huniq p hp
    have hcov : i ∈ kd_query ((compute_face_data vertices faces).map (·.centroid)) p
        faces.length := by
      rw [← hcl]
      exact kd_query_mem_of_all _ p i (by rw [hcl, ← compute_face_data_length vertices faces]
                                          exact hmin.1)
    simp only [Function.comp_apply]
    rw [(cuda_record_proj _ p).2.1, cpu_record_unique_min _ _ faces.length p i hmin hcov]
    exact ((cuda_per_point_unique_min _ 50000 (by decide) p i hmin).2.1).symm

set_option maxHeartbeats 1600000 in
/-- Witness for `claim_C3_agreement`: the unit triangle and a point above its
first vertex, where the single face is trivially the unique minimizer. -/
theorem claim_C3_witness :
    ([(⟨0, ⟨1, 0, 0⟩, 1, some 1⟩ : MappingRecord)]).map (·.faceIndex) =
      (compute_mapping_cuda_default [⟨0,0,1⟩] uVerts uFaces).map (·.faceIndex) ∧
    ([(⟨0, ⟨1, 0, 0⟩, 1, some 1⟩ : MappingRecord)]).map (·.bary) =
      (compute_mapping_cuda_default [⟨0,0,1⟩] uVerts uFaces).map (·.bary) :=
  claim_C3_agreement [⟨0,0,1⟩] uVerts uFaces [⟨0, ⟨1, 0, 0⟩, 1, some 1⟩] (by decide)
    (by intro p hp
        rw [List.mem_singleton] at hp
        subst hp
        exact ⟨0, by decide⟩)
    (by decide)
